import Mathlib

/-!
Verification development for a real-time voice-conversation client
(streaming STT → LLM → chunked TTS with barge-in).

The definitions below are shallow embeddings of the JavaScript source:
  - sentence/phrase chunker        (client/src/hooks/useConversationEngine.js,
                                    extractSpeakChunk; identical copy in engine/sse.js)
  - ordered playback queue         (client/src/engine/audioQueue.js and the
                                    inline copy tryFlushAudioInOrder/playNextIfNeeded)
  - barge-in teardown              (stopAudioOutput)
  - voice-activity gate            (worklet.port.onmessage energy gate)
  - utterance accumulator          (ws.onmessage transcript handler)
  - LLM message construction      (runAssistantTurnStreamed, clampText)
  - bounded-concurrency TTS pump   (kickTtsPump)
  - linear-interpolation resampler (client/src/audio/pcm16-worklet.js)

JavaScript strings are modelled as `List Char`, JS numbers as `ℚ` (the
numeric values reached in the claims under study are exactly representable),
JS `Map` as an association list with JS `Map.set` overwrite semantics.
Asynchronous awaits are modelled by running continuations to completion;
ghost trace fields (`flushTr`, `srcTr`, `issued`) record the order in which
observable effects happen.
-/

/-! ## JS string primitives -/

/-- ECMAScript whitespace test used by `String.prototype.trim`. -/
def isJsWs (c : Char) : Bool :=
  c == ' ' || c == '\t' || c == '\n' || c == '\r' ||
  c.val == 11 || c.val == 12 || c.val == 0x00A0 || c.val == 0xFEFF ||
  c.val == 0x1680 || (0x2000 ≤ c.val && c.val ≤ 0x200A) ||
  c.val == 0x2028 || c.val == 0x2029 || c.val == 0x202F ||
  c.val == 0x205F || c.val == 0x3000

/-- JS `trimStart()`. -/
def jsTrimStart (l : List Char) : List Char := l.dropWhile isJsWs

/-- JS `trimEnd()`. -/
def jsTrimEnd (l : List Char) : List Char := (l.reverse.dropWhile isJsWs).reverse

/-- JS `trim()`. -/
def jsTrim (l : List Char) : List Char := jsTrimStart (jsTrimEnd l)

/-- Helper for JS `lastIndexOf` / last regex match: scans left to right,
remembering the index of the last hit; `-1` when there is none.  Mirrors the
`while ((m = sentenceEnd.exec(text)) !== null) lastEnd = m.index` loop. -/
def lastIdxAux (p : Char → Bool) : Nat → Int → List Char → Int
  | _, acc, [] => acc
  | i, acc, c :: cs => lastIdxAux p (i + 1) (if p c then (i : Int) else acc) cs

/-- Index of the last character satisfying `p` (`-1` if none), as in JS
`lastIndexOf` and the chunker's last-match regex scan. -/
def lastIdxP (p : Char → Bool) (l : List Char) : Int := lastIdxAux p 0 (-1) l

/-! ## Sentence/phrase chunker (source embedding) -/

/-- The chunker's sentence-terminal characters: regex `[.!?]|[।]`. -/
def isSentencePunct (c : Char) : Bool :=
  c == '.' || c == '!' || c == '?' || c == '।'

/-- Source embedding of `extractSpeakChunk(buffer)`:
returns `(chunk?, rest)` exactly as the JS function does
(`slice(0, cutPos)` is `take`, `slice(cutPos)` is `drop`). -/
def extractSpeakChunk (buffer : List Char) : Option (List Char) × List Char :=
  let text := jsTrim buffer
  if text.isEmpty then (none, buffer)
  else
    let lastEnd := lastIdxP isSentencePunct text
    if 20 ≤ lastEnd then
      let cutPos := (lastEnd + 1).toNat
      (some (jsTrim (text.take cutPos)), jsTrimStart (text.drop cutPos))
    else if 90 ≤ text.length then
      let soft := max (lastIdxP (fun c => c == ',') text)
                      (lastIdxP (fun c => c == ';') text)
      if 40 < soft then
        let cutPos := (soft + 1).toNat
        (some (jsTrim (text.take cutPos)), jsTrimStart (text.drop cutPos))
      else
        let sp := lastIdxP (fun c => c == ' ') text
        if 50 < sp then
          (some (jsTrim (text.take sp.toNat)), jsTrimStart (text.drop sp.toNat))
        else (some (jsTrim text), [])
    else (none, buffer)

/-! ## Spec-side chunker (from the specification's words, for refinement) -/

/-- Index of the first hit scanning left to right. -/
def firstHit (p : Char → Bool) : List Char → Option Nat
  | [] => none
  | c :: cs => if p c then some 0 else (firstHit p cs).map (· + 1)

/-- Position of the LAST character satisfying `p`: found by scanning the
string from the end, per the spec's "cut at the last … mark". -/
def lastHitIdx (p : Char → Bool) (l : List Char) : Option Nat :=
  (firstHit p l.reverse).map (fun j => l.length - 1 - j)

/-- `-1`-encoding of an optional index, to compare with JS `lastIndexOf`. -/
def optIdxToInt : Option Nat → Int
  | none => -1
  | some n => (n : Int)

/-- Spec-side comma-or-semicolon test ("the last comma/semicolon"). -/
def isSoftPunct (c : Char) : Bool := c == ',' || c == ';'

/-- Chunker as described by the spec (§4.5), written from its words:
preference 1 cuts at the last sentence-terminal mark when its position is at
or beyond offset 20; otherwise, once the trimmed buffer has reached 90
characters, preference 2 cuts after the last comma/semicolon beyond offset
40, else at the last space beyond offset 50, else emits the whole (trimmed)
buffer; otherwise no chunk is yielded. -/
def chunkerSpec (buffer : List Char) : Option (List Char) × List Char :=
  let t := jsTrim buffer
  if t.isEmpty then (none, buffer)
  else
    match lastHitIdx isSentencePunct t with
    | some p =>
      if 20 ≤ p then
        (some (jsTrim (t.take (p + 1))), jsTrimStart (t.drop (p + 1)))
      else chunkerSpecPhrase t buffer
    | none => chunkerSpecPhrase t buffer
where
  /-- Preference 2 of the spec (phrase-level cut once 90 characters have
  accumulated). -/
  chunkerSpecPhrase (t buffer : List Char) : Option (List Char) × List Char :=
    if 90 ≤ t.length then
      match lastHitIdx isSoftPunct t with
      | some q =>
        if 40 < q then
          (some (jsTrim (t.take (q + 1))), jsTrimStart (t.drop (q + 1)))
        else chunkerSpecSpace t
      | none => chunkerSpecSpace t
    else (none, buffer)
  /-- Last fallback of preference 2: the last space beyond offset 50, else
  the entire (trimmed) buffer verbatim. -/
  chunkerSpecSpace (t : List Char) : Option (List Char) × List Char :=
    match lastHitIdx (fun c => c == ' ') t with
    | some r =>
      if 50 < r then (some (jsTrim (t.take r)), jsTrimStart (t.drop r))
      else (some (jsTrim t), [])
    | none => (some (jsTrim t), [])

/-! ## Incremental chunking to exhaustion (round-trip analysis) -/

/-- Repeatedly extract chunks, then flush the trailing leftover as the turn
orchestrator does (`const leftover = buffer.trim(); if (leftover) …`).
`fuel ≥ buffer.length` always suffices, since every emitted chunk is
nonempty. -/
def chunkAll : Nat → List Char → List (List Char)
  | 0, buf => if (jsTrim buf).isEmpty then [] else [jsTrim buf]
  | fuel + 1, buf =>
    match extractSpeakChunk buf with
    | (none, _) => if (jsTrim buf).isEmpty then [] else [jsTrim buf]
    | (some c, rest) => c :: chunkAll fuel rest

/-- Concatenation of all chunks with nothing inserted between them. -/
def concatChunks (cs : List (List Char)) : List Char := cs.foldr (· ++ ·) []

/-- `WsInterleaved cs t` holds when `t` is exactly the chunks `cs` in order,
separated by (possibly empty) runs of whitespace — i.e. the chunks preserve
every non-whitespace character of `t`, in order, with nothing else. -/
def WsInterleaved : List (List Char) → List Char → Prop
  | [], t => t = []
  | c :: cs, t => ∃ w t', (∀ ch ∈ w, isJsWs ch = true) ∧
      t = c ++ w ++ t' ∧ WsInterleaved cs t'

/-! ## Ordered playback queue (engine/audioQueue.js + hook copy) -/

/-- One synthesized audio chunk: its sequence number plus an opaque payload
standing for the blob URL / mime / metrics. -/
structure AudioItem where
  seq : Nat
  payload : Nat
deriving DecidableEq, Repr

/-- JS `Map.get`. -/
def mapGet (m : List (Nat × AudioItem)) (k : Nat) : Option AudioItem :=
  match m with
  | [] => none
  | (k', v) :: r => if k' = k then some v else mapGet r k

/-- JS `Map.set` (overwrites in place, appends new keys). -/
def mapSet (m : List (Nat × AudioItem)) (k : Nat) (v : AudioItem) :
    List (Nat × AudioItem) :=
  match m with
  | [] => [(k, v)]
  | (k', v') :: r => if k' = k then (k, v) :: r else (k', v') :: mapSet r k v

/-- JS `Map.delete`. -/
def mapDel (m : List (Nat × AudioItem)) (k : Nat) : List (Nat × AudioItem) :=
  match m with
  | [] => []
  | (k', v') :: r => if k' = k then r else (k', v') :: mapDel r k

/-- State of the ordered playback queue.  `flushTr` and `srcTr` are ghost
traces: the items moved into `playQueue` (in order), and the items the sink's
source was set to (in order).  `playIdx` indexes an external oracle deciding
whether each `play()` attempt succeeds (autoplay policy). -/
structure QState where
  ready : List (Nat × AudioItem)
  playQueue : List AudioItem
  nextSeq : Nat
  flushTr : List AudioItem
  srcTr : List AudioItem
  playIdx : Nat
deriving DecidableEq, Repr

def initQ : QState := ⟨[], [], 0, [], [], 0⟩

/-- `addReadyItem(item)`: `state.readyBySeq.set(item.seq, item)`. -/
def addReadyItem (s : QState) (it : AudioItem) : QState :=
  { s with ready := mapSet s.ready it.seq it }

/-- The `while` body of `flushToPlayQueue`, with fuel; each iteration deletes
one entry from the ready map, so `ready.length` fuel is exact. -/
def flushLoop : Nat → QState → QState
  | 0, s => s
  | fuel + 1, s =>
    match mapGet s.ready s.nextSeq with
    | none => s
    | some it =>
      flushLoop fuel
        { s with
          ready := mapDel s.ready s.nextSeq,
          playQueue := s.playQueue ++ [it],
          flushTr := s.flushTr ++ [it],
          nextSeq := s.nextSeq + 1 }

/-- `flushToPlayQueue()`: move the item matching `nextSeq` from the ready map
into the play queue, repeatedly, until no contiguous match remains. -/
def flushToPlayQueue (s : QState) : QState := flushLoop s.ready.length s

/-- The recursive `playNextIfNeeded` chain, run to completion (awaits modelled
synchronously): shifts items off the play queue one at a time, setting the
sink's source to each (recorded in the trace); a rejected `play()` attempt
(oracle `false`) stops the chain, leaving the rest queued.
Returns (next oracle index, source-set trace, remaining queue). -/
def drainQ (oks : Nat → Bool) : Nat → List AudioItem → Nat × List AudioItem × List AudioItem
  | i, [] => (i, [], [])
  | i, it :: pq =>
    if oks i then
      let r := drainQ oks (i + 1) pq
      (r.1, it :: r.2.1, r.2.2)
    else (i + 1, [it], pq)

/-- `playNextIfNeeded()` applied to the queue state. -/
def playNextModel (oks : Nat → Bool) (s : QState) : QState :=
  let r := drainQ oks s.playIdx s.playQueue
  { s with playQueue := r.2.2, srcTr := s.srcTr ++ r.2.1, playIdx := r.1 }

/-- `onItemCompleted(item)`: `addReadyItem; flushToPlayQueue; playNextIfNeeded`. -/
def onItemCompleted (oks : Nat → Bool) (s : QState) (it : AudioItem) : QState :=
  playNextModel oks (flushToPlayQueue (addReadyItem s it))

/-- Submit a whole completion sequence to a fresh queue. -/
def runQueue (oks : Nat → Bool) (subs : List AudioItem) : QState :=
  subs.foldl (onItemCompleted oks) initQ

/-! ## Engine state and barge-in teardown (stopAudioOutput) -/

/-- Client engine state relevant to cancellation.  `ctrls` is a registry of
abort controllers (entry `true` = aborted); `llmCtrl` / `ttsCtrls` are the
indices held in `llmStreamAbortRef` / `ttsAbortSetRef`. -/
structure EngSt where
  q : QState
  seqCounter : Nat
  ctrls : List Bool
  llmCtrl : Option Nat
  ttsCtrls : List Nat
  sinkPlaying : Bool
  aiSpeaking : Bool
  isPlaying : Bool
  gateIsSpeech : Bool
  gateOnset : Nat
  preRoll : List Nat
deriving DecidableEq, Repr

/-- `controller.abort()` on an optional controller. -/
def abortOne (ctrls : List Bool) : Option Nat → List Bool
  | none => ctrls
  | some i => ctrls.set i true

/-- `for (const c of ttsAbortSetRef.current) c.abort()`. -/
def abortAll (ctrls : List Bool) (ids : List Nat) : List Bool :=
  ids.foldl (fun c i => c.set i true) ctrls

/-- `stopAudioOutput()`: pause the sink, drop speaking/playing flags, abort
the LLM stream controller and every in-flight TTS controller, clear the play
queue and the ready map, reset both sequence counters, reset the gate and the
pre-roll buffer.  (Ghost traces are left untouched: nothing is played.) -/
def stopAudioOutput (s : EngSt) : EngSt :=
  { s with
    sinkPlaying := false,
    aiSpeaking := false,
    isPlaying := false,
    ctrls := abortAll (abortOne s.ctrls s.llmCtrl) s.ttsCtrls,
    llmCtrl := none,
    ttsCtrls := [],
    q := { s.q with ready := [], playQueue := [], nextSeq := 0 },
    seqCounter := 0,
    gateIsSpeech := false,
    gateOnset := 0,
    preRoll := [] }

/-- The TTS success continuation applied to a late-arriving synthesis result:
`readyAudioBySeqRef.current.set(seq, tts); await tryFlushAudioInOrder()`
(which flushes in order and then calls `playNextIfNeeded`). -/
def engSubmit (oks : Nat → Bool) (s : EngSt) (it : AudioItem) : EngSt :=
  { s with q := playNextModel oks (flushToPlayQueue (addReadyItem s.q it)) }

/-! ## Voice-activity gate -/

/-- A barge-in profile (absolute floors, multipliers, debounce length,
hangover duration). -/
structure GateProfile where
  absOn : ℚ
  absOff : ℚ
  multOn : ℚ
  multOff : ℚ
  minOnFrames : Nat
  hangMs : ℚ
deriving Repr

/-- Gate state `gateRef.current` (noise floor, confirmed-speech flag, onset
run length, timestamp of last speech energy). -/
structure GateSt where
  floor : ℚ
  isSpeech : Bool
  onsetFrames : Nat
  lastSpeechAt : ℚ
deriving Repr

/-- One processed frame: its RMS energy, arrival time, and whether assistant
audio was playing when it arrived. -/
structure GateFrame where
  rms : ℚ
  t : ℚ
  aiSpeaking : Bool
deriving Repr

/-- Noise-floor update: exponential smoothing while assistant audio plays and
speech is not yet confirmed (`floor = floor==0 ? rms : 0.97*floor + 0.03*rms`). -/
def gateFloor (f : GateFrame) (s : GateSt) : ℚ :=
  if f.aiSpeaking && !s.isSpeech then
    if s.floor = 0 then f.rms else 97 / 100 * s.floor + 3 / 100 * f.rms
  else s.floor

/-- Onset threshold `ON = max(absOn, floor * multOn)`. -/
def gateON (p : GateProfile) (fl : ℚ) : ℚ := max p.absOn (fl * p.multOn)

/-- Release threshold `OFF = max(absOff, floor * multOff)`. -/
def gateOFF (p : GateProfile) (fl : ℚ) : ℚ := max p.absOff (fl * p.multOff)

/-- One frame of the gate (the energy branch of `worklet.port.onmessage`). -/
def gateStep (p : GateProfile) (f : GateFrame) (s : GateSt) : GateSt :=
  let fl := gateFloor f s
  if s.isSpeech then
    let lsa := if gateOFF p fl ≤ f.rms then f.t else s.lastSpeechAt
    { floor := fl,
      isSpeech := !decide (p.hangMs < f.t - lsa),
      onsetFrames := s.onsetFrames,
      lastSpeechAt := lsa }
  else
    let onset := if gateON p fl ≤ f.rms then s.onsetFrames + 1 else 0
    if p.minOnFrames ≤ onset then
      { floor := fl, isSpeech := true, onsetFrames := 0, lastSpeechAt := f.t }
    else
      { floor := fl, isSpeech := false, onsetFrames := onset,
        lastSpeechAt := s.lastSpeechAt }

/-- Ghost instrumentation: fold the gate over a frame list while counting the
current run of consecutive frames that were processed outside confirmed
speech with RMS at or above the onset threshold. -/
def gateTrail (p : GateProfile) (st : GateSt × Nat) (f : GateFrame) : GateSt × Nat :=
  (gateStep p f st.1,
   if st.1.isSpeech = false ∧ gateON p (gateFloor f st.1) ≤ f.rms
   then st.2 + 1 else 0)

/-- Run the gate from `init` over `fs`, returning final state and the length
of the trailing run of qualifying frames. -/
def gateFold (p : GateProfile) (init : GateSt) (fs : List GateFrame) : GateSt × Nat :=
  fs.foldl (gateTrail p) (init, 0)

/-- Running the gate alone (first component of `gateFold`). -/
def gateRun (p : GateProfile) (init : GateSt) (fs : List GateFrame) : GateSt :=
  fs.foldl (fun s f => gateStep p f s) init

/-- Gate invariant: outside confirmed speech the onset counter never exceeds
the trailing qualifying-frame run; inside confirmed speech it is zero. -/
def GInv (st : GateSt × Nat) : Prop :=
  (st.1.isSpeech = false → st.1.onsetFrames ≤ st.2) ∧
  (st.1.isSpeech = true → st.1.onsetFrames = 0)

/-! ## Utterance accumulator (ws.onmessage transcript handler) -/

/-- One transcript fragment `{ text, is_final, speech_final }`. -/
structure Frag where
  text : List Char
  isFinal : Bool
  speechFinal : Bool
deriving DecidableEq, Repr

/-- Accumulator state: the finalized parts collected so far, and the emitted
turn texts (ghost trace of `runAssistantTurnStreamed({userText})` calls). -/
structure AccSt where
  parts : List (List Char)
  turns : List (List Char)
deriving DecidableEq, Repr

/-- One transcript message: trim; drop if empty; push trimmed text when
`is_final`; on `speech_final`, emit `parts.join(" ").trim()` as a turn.
(The source does not clear `textFinalParts` here; they are cleared when the
next utterance starts.) -/
def accStep (s : AccSt) (f : Frag) : AccSt :=
  let text := jsTrim f.text
  if text.isEmpty then s
  else
    let parts := if f.isFinal then s.parts ++ [text] else s.parts
    if f.speechFinal then
      { parts := parts,
        turns := s.turns ++ [jsTrim (List.intercalate [' '] parts)] }
    else { parts := parts, turns := s.turns }

/-- Feed a fragment sequence into a fresh accumulator. -/
def accRun (fs : List Frag) : AccSt := fs.foldl accStep ⟨[], []⟩

/-- The texts the handler actually keeps: the per-fragment-trimmed texts of
`is_final` fragments that are nonempty after trimming. -/
def finalTexts (fs : List Frag) : List (List Char) :=
  (fs.filter (fun f => f.isFinal && !(jsTrim f.text).isEmpty)).map
    (fun f => jsTrim f.text)

/-- The claim's literal reading of the emitted text: the raw texts of all
`is_final` fragments joined with single spaces, then trimmed. -/
def claimJoinedText (fs : List Frag) : List Char :=
  jsTrim (List.intercalate [' '] ((fs.filter (fun f => f.isFinal)).map (fun f => f.text)))

/-! ## LLM message construction (runAssistantTurnStreamed) -/

inductive ChatRole
  | system
  | user
  | assistant
deriving DecidableEq, Repr

/-- A conversation-log message (role + text). -/
structure ChatMsg where
  role : ChatRole
  text : List Char
deriving DecidableEq, Repr

/-- A model-input message (role + content). -/
structure LlmMsg where
  role : ChatRole
  content : List Char
deriving DecidableEq, Repr

/-- `clampText(s, max)`: the text unchanged when within `max` characters,
else its first `max` characters with an appended ellipsis. -/
def clampText (s : List Char) (maxLen : Nat) : List Char :=
  if s.length ≤ maxLen then s else s.take maxLen ++ ['…']

/-- JS `messages.slice(-10)`: the last up-to-10 entries. -/
def sliceLast10 (msgs : List ChatMsg) : List ChatMsg :=
  msgs.drop (msgs.length - 10)

/-- The `llmMessages` array: system prompt, the last ≤10 prior turns as
role/content pairs, then the new user content clamped at 5000. -/
def buildLlmMessages (sysPrompt : List Char) (msgs : List ChatMsg)
    (userText : List Char) : List LlmMsg :=
  ⟨ChatRole.system, sysPrompt⟩ ::
    ((sliceLast10 msgs).map (fun m => ⟨m.role, m.text⟩) ++
      [⟨ChatRole.user, clampText userText 5000⟩])

/-! ## Bounded-concurrency synthesis pump (kickTtsPump) -/

/-- Pump state: pending text chunks (by id), in-flight request count, and the
ghost trace of issued requests in issue order. -/
structure PumpSt where
  pending : List Nat
  inFlight : Nat
  issued : List Nat
deriving DecidableEq, Repr

/-- The `while (inFlight < MAX_TTS_IN_FLIGHT && pendingTextChunks.length > 0)`
loop body, with fuel (one pending chunk consumed per iteration;
`MAX_TTS_IN_FLIGHT = 2`). -/
def kickLoop : Nat → PumpSt → PumpSt
  | 0, s => s
  | fuel + 1, s =>
    if s.inFlight < 2 then
      match s.pending with
      | [] => s
      | c :: rest => kickLoop fuel ⟨rest, s.inFlight + 1, s.issued ++ [c]⟩
    else s

/-- `kickTtsPump()`. -/
def kickTtsPump (s : PumpSt) : PumpSt := kickLoop s.pending.length s

/-- Pump events: a new chunk queued by the delta handler (followed by a
kick), or a synthesis completion (success or failure: decrement in-flight,
kick again). -/
inductive PumpEv
  | push : Nat → PumpEv
  | complete
deriving DecidableEq, Repr

def pumpStep (s : PumpSt) : PumpEv → PumpSt
  | PumpEv.push c => kickTtsPump { s with pending := s.pending ++ [c] }
  | PumpEv.complete => kickTtsPump { s with inFlight := s.inFlight - 1 }

/-- Run an event sequence against the idle pump. -/
def pumpRun (evs : List PumpEv) : PumpSt := evs.foldl pumpStep ⟨[], 0, []⟩

/-- The chunks pushed by an event sequence, in order. -/
def pushesOf (evs : List PumpEv) : List Nat :=
  evs.filterMap (fun e => match e with
    | PumpEv.push c => some c
    | PumpEv.complete => none)

/-! ## Resampling frame producer (pcm16-worklet.js) -/

/-- Resampler continuity state: `ratio` (named `stride` here), previous input
sample, fractional position, and the one-shot `inited` flag. -/
structure RState where
  stride : ℚ
  prev : ℚ
  pos : ℚ
  inited : Bool
deriving Repr

/-- JS double→Int16 store (truncation toward zero; inputs are pre-clamped). -/
def toInt16 (q : ℚ) : Int := if 0 ≤ q then ⌊q⌋ else -⌊-q⌋

/-- `Math.max(-1, Math.min(1, sample))`. -/
def clamp1 (q : ℚ) : ℚ := max (-1) (min 1 q)

/-- Linear interpolation between the carried `prev` sample and the current
block (`s0 = idx === 0 ? prev : input[idx-1]`, `s1 = … input[idx]`).
Out-of-range reads return 0 where JS would read `undefined`; the values are
irrelevant to the sample-count property under study. -/
def interpSample (prev : ℚ) (input : List ℚ) (p : ℚ) : ℚ :=
  let idx : Int := ⌊p⌋
  let frac : ℚ := p - (idx : ℚ)
  let s0 := if idx = 0 then prev else input.getD (idx - 1).toNat 0
  let s1 := if idx = 0 then input.getD 0 0 else input.getD idx.toNat 0
  s0 + (s1 - s0) * frac

/-- One `process(inputs)` call of the worklet: empty blocks are skipped;
`maxOut = Math.floor((dataLen - 1 - pos) / ratio)` with `dataLen - 1 =
input.length`; when no sample fits, the position is slid back by the block
length; otherwise `maxOut` samples are produced at positions
`pos, pos + ratio, …` and the position and `prev` are carried over. -/
def processBlock (s : RState) (input : List ℚ) : RState × List Int :=
  match input with
  | [] => (s, [])
  | x :: _ =>
    let s0 := if s.inited then s else { s with prev := x, inited := true }
    let len : ℚ := (input.length : ℚ)
    let maxOut : Int := ⌊(len - s0.pos) / s0.stride⌋
    if maxOut ≤ 0 then
      ({ s0 with pos := s0.pos - len, prev := input.getLastD x }, [])
    else
      let n := maxOut.toNat
      let outs := (List.range n).map (fun (i : Nat) =>
        let sm := clamp1 (interpSample s0.prev input (s0.pos + (i : ℚ) * s0.stride))
        toInt16 (if sm < 0 then sm * 32768 else sm * 32767))
      ({ s0 with pos := s0.pos + (n : ℚ) * s0.stride - len,
                 prev := input.getLastD x }, outs)

/-- Output-sample count of one block as a closed form. -/
def blockCount (stride p : ℚ) (n : Nat) : Int := ⌊((n : ℚ) - p) / stride⌋

/-- Invariant of the pump between events: in-flight never exceeds the cap,
and after a kick either nothing is pending or the cap is saturated. -/
def PInv (s : PumpSt) : Prop := s.inFlight ≤ 2 ∧ (s.pending = [] ∨ s.inFlight = 2)

/-- Invariant of the ordered playback queue, relative to the sequence numbers
submitted so far: ready-map entries are keyed by their item's sequence; the
flush trace is exactly `0, 1, …, nextSeq - 1` in order; the source-set trace
followed by the remaining play queue is the flush trace; and both ready keys
and every flushed sequence come from submitted items. -/
def QInv (processed : List Nat) (s : QState) : Prop :=
  (∀ e ∈ s.ready, e.2.seq = e.1) ∧
  s.flushTr.map (fun it => it.seq) = List.range s.nextSeq ∧
  s.srcTr ++ s.playQueue = s.flushTr ∧
  (∀ e ∈ s.ready, e.1 ∈ processed) ∧
  (∀ k, k < s.nextSeq → k ∈ processed)

/-! # Theorems -/

/-! ## C9: bounded-concurrency synthesis pump -/

theorem kickLoop_inFlight_le (fuel : Nat) (s : PumpSt) (h : s.inFlight ≤ 2) :
    (kickLoop fuel s).inFlight ≤ 2 := by
  induction fuel generalizing s with
  | zero => exact h
  | succ n ih =>
    rcases hs : s.pending with _ | ⟨c, rest⟩
    · simp [kickLoop, hs]
      exact h
    · by_cases h2 : s.inFlight < 2
      · rw [kickLoop]
        simp only [hs, if_pos h2]
        exact ih _ (show s.inFlight + 1 ≤ 2 by omega)
      · simp only [kickLoop, hs, if_neg h2]
        exact h

theorem kickLoop_conserve (fuel : Nat) (s : PumpSt) :
    (kickLoop fuel s).issued ++ (kickLoop fuel s).pending = s.issued ++ s.pending := by
  induction fuel generalizing s with
  | zero => rfl
  | succ n ih =>
    rcases hs : s.pending with _ | ⟨c, rest⟩
    · simp [kickLoop, hs]
    · by_cases h2 : s.inFlight < 2
      · rw [kickLoop]
        simp only [hs, if_pos h2]
        rw [ih]
        simp
      · simp [kickLoop, hs, h2]

theorem kickLoop_sum (fuel : Nat) (s : PumpSt) :
    (kickLoop fuel s).inFlight + (kickLoop fuel s).pending.length =
      s.inFlight + s.pending.length := by
  induction fuel generalizing s with
  | zero => rfl
  | succ n ih =>
    rcases hs : s.pending with _ | ⟨c, rest⟩
    · simp [kickLoop, hs]
    · by_cases h2 : s.inFlight < 2
      · rw [kickLoop]
        simp only [hs, if_pos h2]
        rw [ih]
        show s.inFlight + 1 + rest.length = s.inFlight + (c :: rest).length
        simp only [List.length_cons]
        omega
      · simp [kickLoop, hs, h2]

theorem kickLoop_full (fuel : Nat) (s : PumpSt) (hf : s.pending.length ≤ fuel)
    (h2 : s.inFlight ≤ 2) :
    (kickLoop fuel s).pending = [] ∨ (kickLoop fuel s).inFlight = 2 := by
  induction fuel generalizing s with
  | zero =>
    left
    have hp : s.pending = [] := List.eq_nil_of_length_eq_zero (Nat.le_zero.mp hf)
    simpa [kickLoop] using hp
  | succ n ih =>
    rcases hs : s.pending with _ | ⟨c, rest⟩
    · left; simp [kickLoop, hs]
    · by_cases hlt : s.inFlight < 2
      · rw [kickLoop]
        simp only [hs, if_pos hlt]
        refine ih _ (show rest.length ≤ n from ?_) (show s.inFlight + 1 ≤ 2 by omega)
        rw [hs] at hf
        simp only [List.length_cons] at hf
        omega
      · rw [kickLoop]
        simp only [hs, if_neg hlt]
        right
        omega

theorem kickTtsPump_inv (s : PumpSt) (h : s.inFlight ≤ 2) : PInv (kickTtsPump s) :=
  ⟨kickLoop_inFlight_le _ _ h, kickLoop_full _ _ le_rfl h⟩

theorem pumpStep_inv (s : PumpSt) (e : PumpEv) (h : s.inFlight ≤ 2) :
    PInv (pumpStep s e) := by
  cases e with
  | push c => exact kickTtsPump_inv _ h
  | complete => exact kickTtsPump_inv _ (show s.inFlight - 1 ≤ 2 by omega)

theorem pumpFold_inv (evs : List PumpEv) (s : PumpSt) (h : PInv s) :
    PInv (List.foldl pumpStep s evs) := by
  induction evs generalizing s with
  | nil => exact h
  | cons e rest ih => exact ih _ (pumpStep_inv s e h.1)

theorem pumpStep_conserve (s : PumpSt) (e : PumpEv) :
    (pumpStep s e).issued ++ (pumpStep s e).pending =
      s.issued ++ s.pending ++ pushesOf [e] := by
  cases e with
  | push c =>
    show (kickTtsPump _).issued ++ (kickTtsPump _).pending = _
    rw [kickTtsPump, kickLoop_conserve]
    simp [pushesOf]
  | complete =>
    show (kickTtsPump _).issued ++ (kickTtsPump _).pending = _
    rw [kickTtsPump, kickLoop_conserve]
    simp [pushesOf]

theorem pumpFold_conserve (evs : List PumpEv) (s : PumpSt) :
    (List.foldl pumpStep s evs).issued ++ (List.foldl pumpStep s evs).pending =
      s.issued ++ s.pending ++ pushesOf evs := by
  induction evs generalizing s with
  | nil => simp [pushesOf]
  | cons e rest ih =>
    rw [List.foldl_cons, ih, pumpStep_conserve s e]
    cases e <;> simp [pushesOf]

theorem pumpDrain (n : Nat) (s : PumpSt) (hinv : PInv s)
    (hsum : s.inFlight + s.pending.length = n) :
    (List.foldl pumpStep s (List.replicate n PumpEv.complete)).pending = [] ∧
    (List.foldl pumpStep s (List.replicate n PumpEv.complete)).issued =
      s.issued ++ s.pending := by
  induction n generalizing s with
  | zero =>
    have hp : s.pending = [] := List.eq_nil_of_length_eq_zero (by omega)
    simp [hp]
  | succ n ih =>
    rw [List.replicate_succ, List.foldl_cons]
    have h1 : s.inFlight ≤ 2 := hinv.1
    have hge : 1 ≤ s.inFlight := by
      rcases hinv.2 with hp | h2
      · rw [hp] at hsum; simp at hsum; omega
      · omega
    have hinv' : PInv (pumpStep s PumpEv.complete) := pumpStep_inv s _ h1
    have hsum' : (pumpStep s PumpEv.complete).inFlight +
        (pumpStep s PumpEv.complete).pending.length = n := by
      show (kickTtsPump _).inFlight + (kickTtsPump _).pending.length = n
      rw [kickTtsPump, kickLoop_sum]
      dsimp only
      omega
    have hcons : (pumpStep s PumpEv.complete).issued ++
        (pumpStep s PumpEv.complete).pending = s.issued ++ s.pending := by
      have h := pumpStep_conserve s PumpEv.complete
      simpa [pushesOf] using h
    obtain ⟨hfp, hfi⟩ := ih _ hinv' hsum'
    exact ⟨hfp, by rw [hfi, hcons]⟩

/-- C9: during an assistant turn the number of simultaneously in-flight
synthesis requests never exceeds 2 (for every possible interleaving of chunk
pushes and completions); each completion decrements the count and re-kicks
the pump; and after enough completions every queued chunk has been issued, in
queue order (issued ++ pending always equals the pushed chunks in order, and
draining empties pending). -/
theorem c9_tts_pump_bound :
    (∀ evs, (pumpRun evs).inFlight ≤ 2) ∧
    (∀ evs, (pumpRun evs).issued ++ (pumpRun evs).pending = pushesOf evs) ∧
    (∀ evs,
      (pumpRun (evs ++ List.replicate
        ((pumpRun evs).inFlight + (pumpRun evs).pending.length)
        PumpEv.complete)).pending = [] ∧
      (pumpRun (evs ++ List.replicate
        ((pumpRun evs).inFlight + (pumpRun evs).pending.length)
        PumpEv.complete)).issued = pushesOf evs) := by
  have hinit : PInv ⟨[], 0, []⟩ := ⟨by decide, Or.inl rfl⟩
  have hinv : ∀ evs, PInv (pumpRun evs) := fun evs => pumpFold_inv evs _ hinit
  have hcons : ∀ evs, (pumpRun evs).issued ++ (pumpRun evs).pending = pushesOf evs := by
    intro evs
    have h := pumpFold_conserve evs ⟨[], 0, []⟩
    simpa using h
  refine ⟨fun evs => (hinv evs).1, hcons, fun evs => ?_⟩
  have hsplit : pumpRun (evs ++ List.replicate
      ((pumpRun evs).inFlight + (pumpRun evs).pending.length) PumpEv.complete) =
      List.foldl pumpStep (pumpRun evs) (List.replicate
      ((pumpRun evs).inFlight + (pumpRun evs).pending.length) PumpEv.complete) := by
    rw [pumpRun, pumpRun, List.foldl_append]
  obtain ⟨hfp, hfi⟩ := pumpDrain _ (pumpRun evs) (hinv evs) rfl
  rw [hsplit]
  exact ⟨hfp, by rw [hfi]; exact hcons evs⟩

/-! ## C1: ordered playback queue -/

theorem mapGet_mem {m : List (Nat × AudioItem)} {k : Nat} {v : AudioItem}
    (h : mapGet m k = some v) : (k, v) ∈ m := by
  induction m with
  | nil => simp [mapGet] at h
  | cons e r ih =>
    rw [mapGet] at h
    split at h
    · rename_i hk
      cases h
      cases e
      simp_all
    · exact List.mem_cons_of_mem _ (ih h)

theorem mapSet_mem {m : List (Nat × AudioItem)} {k : Nat} {v : AudioItem}
    {e : Nat × AudioItem} (h : e ∈ mapSet m k v) : e = (k, v) ∨ e ∈ m := by
  induction m with
  | nil => simp [mapSet] at h; exact Or.inl h
  | cons e' r ih =>
    rw [mapSet] at h
    split at h
    · rcases List.mem_cons.mp h with h1 | h1
      · exact Or.inl h1
      · exact Or.inr (List.mem_cons_of_mem _ h1)
    · rcases List.mem_cons.mp h with h1 | h1
      · exact Or.inr (h1 ▸ List.mem_cons_self _ _)
      · rcases ih h1 with h2 | h2
        · exact Or.inl h2
        · exact Or.inr (List.mem_cons_of_mem _ h2)

theorem mapDel_sub {m : List (Nat × AudioItem)} {k : Nat}
    {e : Nat × AudioItem} (h : e ∈ mapDel m k) : e ∈ m := by
  induction m with
  | nil => simpa [mapDel] using h
  | cons e' r ih =>
    rw [mapDel] at h
    split at h
    · exact List.mem_cons_of_mem _ h
    · rcases List.mem_cons.mp h with h1 | h1
      · exact h1 ▸ List.mem_cons_self _ _
      · exact List.mem_cons_of_mem _ (ih h1)

theorem mapDel_len {m : List (Nat × AudioItem)} {k : Nat} {v : AudioItem}
    (h : mapGet m k = some v) : (mapDel m k).length + 1 = m.length := by
  induction m with
  | nil => simp [mapGet] at h
  | cons e r ih =>
    rw [mapGet] at h
    rw [mapDel]
    split at h
    · rename_i hk
      simp [hk]
    · rename_i hk
      simp only [if_neg hk, List.length_cons]
      rw [← ih h]

theorem flushLoop_inv (fuel : Nat) (processed : List Nat) (s : QState)
    (h : QInv processed s) : QInv processed (flushLoop fuel s) := by
  induction fuel generalizing s with
  | zero => exact h
  | succ n ih =>
    rw [flushLoop]
    cases hget : mapGet s.ready s.nextSeq with
    | none => exact h
    | some it =>
      apply ih
      obtain ⟨hkv, hflush, hsrc, hmem, hrange⟩ := h
      have hit : (s.nextSeq, it) ∈ s.ready := mapGet_mem hget
      have hseq : it.seq = s.nextSeq := hkv _ hit
      refine ⟨?_, ?_, ?_, ?_, ?_⟩
      · intro e he
        exact hkv _ (mapDel_sub he)
      · show (s.flushTr ++ [it]).map (fun x => x.seq) = List.range (s.nextSeq + 1)
        rw [List.map_append, hflush, List.range_succ]
        simp [hseq]
      · show s.srcTr ++ (s.playQueue ++ [it]) = s.flushTr ++ [it]
        rw [← List.append_assoc, hsrc]
      · intro e he
        exact hmem _ (mapDel_sub he)
      · intro k hk
        rcases Nat.lt_succ_iff_lt_or_eq.mp hk with h1 | h1
        · exact hrange _ h1
        · exact h1 ▸ hmem _ hit

theorem drainQ_split (oks : Nat → Bool) (i : Nat) (pq : List AudioItem) :
    (drainQ oks i pq).2.1 ++ (drainQ oks i pq).2.2 = pq := by
  induction pq generalizing i with
  | nil => rfl
  | cons it rest ih =>
    rw [drainQ]
    by_cases hok : oks i
    · simp only [if_pos hok]
      show it :: ((drainQ oks (i + 1) rest).2.1 ++ (drainQ oks (i + 1) rest).2.2) = _
      rw [ih]
    · simp [if_neg hok]

theorem playNextModel_inv (oks : Nat → Bool) (processed : List Nat) (s : QState)
    (h : QInv processed s) : QInv processed (playNextModel oks s) := by
  obtain ⟨hkv, hflush, hsrc, hmem, hrange⟩ := h
  refine ⟨hkv, hflush, ?_, hmem, hrange⟩
  show (s.srcTr ++ (drainQ oks s.playIdx s.playQueue).2.1) ++
      (drainQ oks s.playIdx s.playQueue).2.2 = s.flushTr
  rw [List.append_assoc, drainQ_split, hsrc]

theorem addReadyItem_inv (processed : List Nat) (s : QState) (it : AudioItem)
    (h : QInv processed s) : QInv (processed ++ [it.seq]) (addReadyItem s it) := by
  obtain ⟨hkv, hflush, hsrc, hmem, hrange⟩ := h
  refine ⟨?_, hflush, hsrc, ?_, ?_⟩
  · intro e he
    rcases mapSet_mem he with h1 | h1
    · rw [h1]
    · exact hkv _ h1
  · intro e he
    rcases mapSet_mem he with h1 | h1
    · rw [h1]
      exact List.mem_append_right _ (List.mem_singleton_self _)
    · exact List.mem_append_left _ (hmem _ h1)
  · intro k hk
    exact List.mem_append_left _ (hrange _ hk)

theorem onItemCompleted_inv (oks : Nat → Bool) (processed : List Nat)
    (s : QState) (it : AudioItem) (h : QInv processed s) :
    QInv (processed ++ [it.seq]) (onItemCompleted oks s it) :=
  playNextModel_inv oks _ _ (flushLoop_inv _ _ _ (addReadyItem_inv processed s it h))

theorem runFold_inv (oks : Nat → Bool) (subs : List AudioItem)
    (processed : List Nat) (s : QState) (h : QInv processed s) :
    QInv (processed ++ subs.map (fun it => it.seq))
      (List.foldl (onItemCompleted oks) s subs) := by
  induction subs generalizing processed s with
  | nil => simpa using h
  | cons it rest ih =>
    rw [List.foldl_cons]
    have step := onItemCompleted_inv oks processed s it h
    have := ih (processed ++ [it.seq]) _ step
    simpa [List.append_assoc] using this

/-- C1: for every submission order, items move from the ready map into the
play queue in strictly ascending sequence order starting at 0, with no
sequence ever repeated (the flush trace is exactly `0,1,…,nextSeq-1`);
`nextSeq` is incremented exactly once per dequeued item; a sequence that was
never submitted blocks all later ones; and the sink's set-source trace is an
initial segment of the flush trace (so sources are also set in ascending
order). -/
theorem c1_ordered_playback (oks : Nat → Bool) (subs : List AudioItem) :
    (runQueue oks subs).flushTr.map (fun it => it.seq) =
      List.range (runQueue oks subs).nextSeq ∧
    (runQueue oks subs).nextSeq = (runQueue oks subs).flushTr.length ∧
    List.Chain' (· < ·) ((runQueue oks subs).flushTr.map (fun it => it.seq)) ∧
    (∀ k, k ∉ subs.map (fun it => it.seq) → (runQueue oks subs).nextSeq ≤ k) ∧
    (runQueue oks subs).srcTr ++ (runQueue oks subs).playQueue =
      (runQueue oks subs).flushTr := by
  simp only [runQueue]
  have hinit : QInv [] initQ := by
    refine ⟨?_, ?_, ?_, ?_, ?_⟩ <;> simp [initQ]
  have h := runFold_inv oks subs [] initQ hinit
  simp only [List.nil_append] at h
  obtain ⟨hkv, hflush, hsrc, hmem, hrange⟩ := h
  refine ⟨hflush, ?_, ?_, ?_, hsrc⟩
  · have := congrArg List.length hflush
    simpa using this.symm
  · rw [hflush]
    exact (List.pairwise_lt_range _).chain'
  · intro k hk
    by_contra hlt
    exact hk (hrange k (Nat.lt_of_not_le hlt))

/-! ## C2: barge-in teardown and late synthesis results -/

theorem set_true_getD (l : List Bool) (i : Nat) (h : i < l.length) :
    (l.set i true).getD i false = true := by
  induction l generalizing i with
  | nil => simp at h
  | cons b r ih =>
    cases i with
    | zero => simp
    | succ j =>
      simp only [List.set_cons_succ, List.getD_cons_succ]
      exact ih j (by simpa using h)

theorem set_true_getD_preserve (l : List Bool) (i j : Nat)
    (h : l.getD i false = true) : (l.set j true).getD i false = true := by
  induction l generalizing i j with
  | nil => simpa using h
  | cons b r ih =>
    cases j with
    | zero =>
      cases i with
      | zero => simp
      | succ i' => simpa using h
    | succ j' =>
      cases i with
      | zero => simpa using h
      | succ i' =>
        simp only [List.set_cons_succ, List.getD_cons_succ] at h ⊢
        exact ih i' j' h

theorem abortAll_getD (ids : List Nat) (l : List Bool) (i : Nat)
    (h : i < l.length) (hm : i ∈ ids ∨ l.getD i false = true) :
    (abortAll l ids).getD i false = true := by
  induction ids generalizing l with
  | nil =>
    rcases hm with hm | hm
    · simp at hm
    · exact hm
  | cons j rest ih =>
    show (abortAll (l.set j true) rest).getD i false = true
    refine ih (l.set j true) (by simpa using h) ?_
    rcases hm with hm | hm
    · rcases List.mem_cons.mp hm with h1 | h1
      · exact Or.inr (h1 ▸ set_true_getD l i h)
      · exact Or.inl h1
    · exact Or.inr (set_true_getD_preserve l i j hm)

/-- C2 (amended): `stopAudioOutput` halts sink playback, drops the speaking
and playing flags, aborts the LLM-stream controller and every in-flight
synthesis controller, clears the play queue and ready map, and resets both
sequence counters; a synthesis result of the cancelled turn that arrives
after the teardown with a nonzero sequence (such as the claim's sequence 1 of
chunks 0,1,2) only lands in the ready map — nothing is flushed, queued, or
played.  (A late result for sequence 0 would, however, be flushed and played,
since items carry only per-turn sequence numbers — see the counterexample.) -/
theorem c2_bargein_teardown (s : EngSt) :
    (stopAudioOutput s).sinkPlaying = false ∧
    (stopAudioOutput s).aiSpeaking = false ∧
    (stopAudioOutput s).isPlaying = false ∧
    (∀ i, s.llmCtrl = some i → i < s.ctrls.length →
      (stopAudioOutput s).ctrls.getD i false = true) ∧
    (∀ i ∈ s.ttsCtrls, i < s.ctrls.length →
      (stopAudioOutput s).ctrls.getD i false = true) ∧
    (stopAudioOutput s).llmCtrl = none ∧
    (stopAudioOutput s).ttsCtrls = [] ∧
    (stopAudioOutput s).q.playQueue = [] ∧
    (stopAudioOutput s).q.ready = [] ∧
    (stopAudioOutput s).q.nextSeq = 0 ∧
    (stopAudioOutput s).seqCounter = 0 ∧
    (∀ (oks : Nat → Bool) (it : AudioItem), it.seq ≠ 0 →
      (engSubmit oks (stopAudioOutput s) it).q.playQueue = [] ∧
      (engSubmit oks (stopAudioOutput s) it).q.srcTr = (stopAudioOutput s).q.srcTr ∧
      (engSubmit oks (stopAudioOutput s) it).q.nextSeq = 0 ∧
      (engSubmit oks (stopAudioOutput s) it).q.ready = [(it.seq, it)]) := by
  refine ⟨rfl, rfl, rfl, ?_, ?_, rfl, rfl, rfl, rfl, rfl, rfl, ?_⟩
  · intro i hllm hlen
    show (abortAll (abortOne s.ctrls s.llmCtrl) s.ttsCtrls).getD i false = true
    refine abortAll_getD _ _ _ ?_ (Or.inr ?_)
    · rw [hllm]; simpa [abortOne] using hlen
    · rw [hllm]
      exact set_true_getD s.ctrls i hlen
  · intro i hi hlen
    show (abortAll (abortOne s.ctrls s.llmCtrl) s.ttsCtrls).getD i false = true
    refine abortAll_getD _ _ _ ?_ (Or.inl hi)
    cases hc : s.llmCtrl <;> simp [abortOne, hc, hlen]
  · intro oks it hseq
    refine ⟨?_, ?_, ?_, ?_⟩ <;>
      simp [engSubmit, stopAudioOutput, addReadyItem, mapSet,
        flushToPlayQueue, flushLoop, mapGet, hseq, playNextModel, drainQ]

/-- C2 counterexample to the unrestricted claim: after barge-in teardown, a
late synthesis result whose per-turn sequence number is 0 is NOT a no-op —
the reset queue (nextSeq = 0) accepts it, flushes it, and sets the sink's
source to it (the source-set trace grows). -/
theorem c2_counterexample :
    (engSubmit (fun _ => true)
      (stopAudioOutput
        ⟨⟨[], [], 3, [], [], 0⟩, 3, [false, false], some 0, [1],
          true, true, true, true, 2, [5]⟩)
      ⟨0, 9⟩).q.srcTr ≠ [] := by
  decide

/-- C2 witness: the amended theorem applied to a concrete engine state in the
middle of a turn (two live controllers, one queued item, sequence counters
advanced), with a late item of sequence 1. -/
theorem c2_witness :
    ((some 0 : Option Nat) = some 0) ∧ (0 < 2) ∧ (1 ∈ [1]) ∧ ((1 : Nat) ≠ 0) ∧
    ((stopAudioOutput
        ⟨⟨[(2, ⟨2, 4⟩)], [⟨0, 3⟩], 3, [], [], 0⟩, 3, [false, false], some 0, [1],
          true, true, true, true, 2, [5]⟩).ctrls.getD 0 false = true) ∧
    ((stopAudioOutput
        ⟨⟨[(2, ⟨2, 4⟩)], [⟨0, 3⟩], 3, [], [], 0⟩, 3, [false, false], some 0, [1],
          true, true, true, true, 2, [5]⟩).ctrls.getD 1 false = true) ∧
    ((engSubmit (fun _ => true)
        (stopAudioOutput
          ⟨⟨[(2, ⟨2, 4⟩)], [⟨0, 3⟩], 3, [], [], 0⟩, 3, [false, false], some 0, [1],
            true, true, true, true, 2, [5]⟩)
        ⟨1, 9⟩).q.ready = [(1, ⟨1, 9⟩)]) := by
  have h := c2_bargein_teardown
    ⟨⟨[(2, ⟨2, 4⟩)], [⟨0, 3⟩], 3, [], [], 0⟩, 3, [false, false], some 0, [1],
      true, true, true, true, 2, [5]⟩
  refine ⟨rfl, by decide, by decide, by decide, ?_, ?_, ?_⟩
  · exact h.2.2.2.1 0 rfl (by decide)
  · exact h.2.2.2.2.1 1 (by decide) (by decide)
  · exact (h.2.2.2.2.2.2.2.2.2.2.2 (fun _ => true) ⟨1, 9⟩ (by decide)).2.2.2

/-! ## C10: resampler continuity across block boundaries -/

theorem processBlock_len (s : RState) (x : ℚ) (xs : List ℚ) :
    (processBlock s (x :: xs)).2.length =
      (blockCount s.stride s.pos (x :: xs).length).toNat := by
  cases hb : s.inited <;>
    simp only [processBlock, hb, Bool.false_eq_true, ite_true, ite_false] <;>
    · by_cases hm : (⌊(((x :: xs).length : ℚ) - s.pos) / s.stride⌋ ≤ 0)
      · rw [if_pos hm]
        rw [blockCount, Int.toNat_of_nonpos hm]
        rfl
      · rw [if_neg hm]
        dsimp only
        rw [blockCount]
        simp

theorem processBlock_pos (s : RState) (x : ℚ) (xs : List ℚ) :
    (processBlock s (x :: xs)).1.pos = s.pos +
      ((blockCount s.stride s.pos (x :: xs).length).toNat : ℚ) * s.stride -
        (x :: xs).length := by
  cases hb : s.inited <;>
    simp only [processBlock, hb, Bool.false_eq_true, ite_true, ite_false] <;>
    · by_cases hm : (⌊(((x :: xs).length : ℚ) - s.pos) / s.stride⌋ ≤ 0)
      · rw [if_pos hm]
        dsimp only
        rw [blockCount, Int.toNat_of_nonpos hm]
        push_cast
        ring
      · rw [if_neg hm]
        dsimp only
        rw [blockCount]

theorem processBlock_stride (s : RState) (input : List ℚ) :
    (processBlock s input).1.stride = s.stride := by
  cases input with
  | nil => rfl
  | cons x xs =>
    cases hb : s.inited <;>
      simp only [processBlock, hb, Bool.false_eq_true, ite_true, ite_false] <;>
      · by_cases hm : (⌊(((x :: xs).length : ℚ) - s.pos) / s.stride⌋ ≤ 0)
        · rw [if_pos hm]
        · rw [if_neg hm]

theorem count_add (r p : ℚ) (hr : 0 < r) (na nb : Nat) :
    (blockCount r p na).toNat +
      (blockCount r (p + ((blockCount r p na).toNat : ℚ) * r - na) nb).toNat =
    (blockCount r p (na + nb)).toNat := by
  have hmono : blockCount r p na ≤ blockCount r p (na + nb) := by
    apply Int.floor_le_floor
    rw [div_le_div_right hr]
    push_cast
    linarith [Nat.cast_nonneg (α := ℚ) nb]
  set m : Nat := (blockCount r p na).toNat with hmdef
  have hshift : blockCount r (p + (m : ℚ) * r - na) nb =
      blockCount r p (na + nb) - (m : ℤ) := by
    rw [blockCount, blockCount]
    rw [show ((nb : ℚ) - (p + (m : ℚ) * r - na)) / r =
        (((na + nb : Nat) : ℚ) - p) / r - ((m : ℤ) : ℚ) by
      push_cast
      field_simp
      ring]
    exact Int.floor_sub_int _ _
  rw [hshift]
  omega

/-- C10: the resampler's continuity state (`prev`, fractional `pos`) carried
across calls preserves the output sample count at block boundaries: for any
state with positive ratio and any two consecutive non-empty blocks (e.g.
48000 Hz capture resampled to 16000 Hz, ratio 3), processing them in two
calls yields a total output count within ±1 of (in fact exactly equal to)
processing their concatenation in one call. -/
theorem c10_resampler_continuity (s : RState) (A B : List ℚ)
    (hr : 0 < s.stride) (hA : A ≠ []) (hB : B ≠ []) :
    Int.natAbs
      ((((processBlock s A).2.length + (processBlock (processBlock s A).1 B).2.length : Nat) : Int) -
        ((processBlock s (A ++ B)).2.length : Int)) ≤ 1 := by
  obtain ⟨a, as, rfl⟩ := List.exists_cons_of_ne_nil hA
  obtain ⟨b, bs, rfl⟩ := List.exists_cons_of_ne_nil hB
  have l1 := processBlock_len s a as
  have l2 := processBlock_len (processBlock s (a :: as)).1 b bs
  have l3 := processBlock_len s a (as ++ b :: bs)
  have p1 := processBlock_pos s a as
  have st1 := processBlock_stride s (a :: as)
  rw [st1, p1] at l2
  rw [List.cons_append, l1, l2, l3]
  have h := count_add s.stride s.pos hr (a :: as).length (b :: bs).length
  rw [show (a :: as).length + (b :: bs).length = (a :: (as ++ b :: bs)).length by
    simp
    omega] at h
  omega

/-- C10 witness: ratio 3 (48000 → 16000), first block of 4 samples, second of
5: counts are 1 + 2 in two calls and 3 on the 9-sample concatenation. -/
theorem c10_witness :
    ((0 : ℚ) < 3) ∧ (([0, 1, 0, 1] : List ℚ) ≠ []) ∧
    (([1, 0, 1, 0, 1] : List ℚ) ≠ []) ∧
    Int.natAbs
      ((((processBlock ⟨3, 0, 0, false⟩ [0, 1, 0, 1]).2.length +
          (processBlock (processBlock ⟨3, 0, 0, false⟩ [0, 1, 0, 1]).1
            [1, 0, 1, 0, 1]).2.length : Nat) : Int) -
        ((processBlock ⟨3, 0, 0, false⟩ ([0, 1, 0, 1] ++ [1, 0, 1, 0, 1])).2.length : Int)) ≤ 1 :=
  ⟨by norm_num, List.cons_ne_nil _ _, List.cons_ne_nil _ _,
    c10_resampler_continuity ⟨3, 0, 0, false⟩ [0, 1, 0, 1] [1, 0, 1, 0, 1]
      (by norm_num) (List.cons_ne_nil _ _) (List.cons_ne_nil _ _)⟩

/-! ## C5 and C6: voice-activity gate -/

theorem gateStep_speech (p : GateProfile) (f : GateFrame) (s : GateSt)
    (h : s.isSpeech = true) :
    gateStep p f s =
      ⟨gateFloor f s,
       !decide (p.hangMs < f.t -
         (if gateOFF p (gateFloor f s) ≤ f.rms then f.t else s.lastSpeechAt)),
       s.onsetFrames,
       if gateOFF p (gateFloor f s) ≤ f.rms then f.t else s.lastSpeechAt⟩ := by
  simp [gateStep, h]

theorem gateStep_noSpeech (p : GateProfile) (f : GateFrame) (s : GateSt)
    (h : s.isSpeech = false) :
    gateStep p f s =
      if p.minOnFrames ≤
          (if gateON p (gateFloor f s) ≤ f.rms then s.onsetFrames + 1 else 0) then
        ⟨gateFloor f s, true, 0, f.t⟩
      else
        ⟨gateFloor f s, false,
         (if gateON p (gateFloor f s) ≤ f.rms then s.onsetFrames + 1 else 0),
         s.lastSpeechAt⟩ := by
  simp [gateStep, h]

theorem gateTrail_inv (p : GateProfile) (f : GateFrame) (st : GateSt × Nat)
    (h : GInv st) : GInv (gateTrail p st f) := by
  obtain ⟨hlo, hhi⟩ := h
  cases hsp : st.1.isSpeech with
  | true =>
    have e := gateStep_speech p f st.1 hsp
    constructor
    · intro _
      show (gateStep p f st.1).onsetFrames ≤ _
      rw [e]
      show st.1.onsetFrames ≤ _
      rw [hhi hsp]
      exact Nat.zero_le _
    · intro _
      show (gateStep p f st.1).onsetFrames = 0
      rw [e]
      exact hhi hsp
  | false =>
    have e := gateStep_noSpeech p f st.1 hsp
    by_cases hq : gateON p (gateFloor f st.1) ≤ f.rms
    · by_cases hmin : p.minOnFrames ≤ st.1.onsetFrames + 1
      · have e2 : gateStep p f st.1 = ⟨gateFloor f st.1, true, 0, f.t⟩ := by
          rw [e]
          simp [hq, hmin]
        constructor
        · intro hc
          show (gateStep p f st.1).onsetFrames ≤ _
          rw [e2]
          exact Nat.zero_le _
        · intro _
          show (gateStep p f st.1).onsetFrames = 0
          rw [e2]
      · have e2 : gateStep p f st.1 =
            ⟨gateFloor f st.1, false, st.1.onsetFrames + 1, st.1.lastSpeechAt⟩ := by
          rw [e]
          simp [hq, hmin]
        constructor
        · intro _
          show (gateStep p f st.1).onsetFrames ≤
            if st.1.isSpeech = false ∧ gateON p (gateFloor f st.1) ≤ f.rms
            then st.2 + 1 else 0
          rw [e2, if_pos ⟨hsp, hq⟩]
          exact Nat.succ_le_succ (hlo hsp)
        · intro hc
          have hc' : (gateStep p f st.1).isSpeech = true := hc
          rw [e2] at hc'
          cases hc'
    · by_cases hmin : p.minOnFrames ≤ 0
      · have e2 : gateStep p f st.1 = ⟨gateFloor f st.1, true, 0, f.t⟩ := by
          rw [e]
          simp [hq, hmin]
        constructor
        · intro hc
          show (gateStep p f st.1).onsetFrames ≤ _
          rw [e2]
          exact Nat.zero_le _
        · intro _
          show (gateStep p f st.1).onsetFrames = 0
          rw [e2]
      · have e2 : gateStep p f st.1 =
            ⟨gateFloor f st.1, false, 0, st.1.lastSpeechAt⟩ := by
          rw [e]
          simp [hq, hmin]
        constructor
        · intro _
          show (gateStep p f st.1).onsetFrames ≤ _
          rw [e2]
          exact Nat.zero_le _
        · intro hc
          have hc' : (gateStep p f st.1).isSpeech = true := hc
          rw [e2] at hc'
          cases hc'

theorem gateFold_inv (p : GateProfile) (init : GateSt) (fs : List GateFrame)
    (h0 : init.onsetFrames = 0) : GInv (gateFold p init fs) := by
  have hstart : GInv (init, 0) := ⟨fun _ => h0 ▸ Nat.le_refl _, fun _ => h0⟩
  rw [gateFold]
  generalize hst : ((init, 0) : GateSt × Nat) = st at hstart
  clear hst h0
  induction fs generalizing st with
  | nil => exact hstart
  | cons f rest ih =>
    rw [List.foldl_cons]
    exact ih _ (gateTrail_inv p f st hstart)

theorem gateLowRun (p : GateProfile) (fs : List GateFrame) (s : GateSt)
    (hm : 1 ≤ p.minOnFrames) (hlow : ∀ g ∈ fs, g.rms < p.absOn)
    (hsp : s.isSpeech = false) :
    (gateRun p s fs).isSpeech = false ∧
    (gateRun p s fs).onsetFrames ≤ s.onsetFrames := by
  induction fs generalizing s with
  | nil => exact ⟨hsp, Nat.le_refl _⟩
  | cons g rest ih =>
    have hg : g.rms < p.absOn := hlow g (List.mem_cons_self g rest)
    have habs : p.absOn ≤ gateON p (gateFloor g s) := le_max_left _ _
    have hq : ¬(gateON p (gateFloor g s) ≤ g.rms) :=
      fun hc => absurd (le_trans habs hc) (not_le.mpr hg)
    have hm0 : ¬(p.minOnFrames ≤ 0) := by omega
    have e2 : gateStep p g s =
        ⟨gateFloor g s, false, 0, s.lastSpeechAt⟩ := by
      rw [gateStep_noSpeech p g s hsp]
      simp [hq, hm0]
    have hrw : gateRun p s (g :: rest) = gateRun p (gateStep p g s) rest := rfl
    rw [hrw, e2]
    obtain ⟨h1, h2⟩ := ih ⟨gateFloor g s, false, 0, s.lastSpeechAt⟩
      (fun x hx => hlow x (List.mem_cons_of_mem _ hx)) rfl
    exact ⟨h1, le_trans h2 (Nat.zero_le _)⟩

/-- C5: while speech is unconfirmed, a frame below the onset threshold resets
the run-length counter to 0; when `confirmedSpeech` flips true the counter is
reset to 0; a flip can only happen when the current run of consecutive
qualifying frames (processed outside confirmed speech with RMS at or above
the per-frame ON threshold, instrumented by `gateTrail`) has reached
`minOnFrames`; hence a single isolated high-energy frame — surrounded by
frames below the absolute onset floor — never flips `confirmedSpeech` to
true when `minOnFrames ≥ 2`. -/
theorem c5_gate_onset_debounce :
    (∀ (p : GateProfile) (f : GateFrame) (s : GateSt), s.isSpeech = false →
      f.rms < gateON p (gateFloor f s) → (gateStep p f s).onsetFrames = 0) ∧
    (∀ (p : GateProfile) (f : GateFrame) (s : GateSt), s.isSpeech = false →
      (gateStep p f s).isSpeech = true → (gateStep p f s).onsetFrames = 0) ∧
    (∀ (p : GateProfile) (init : GateSt) (fs : List GateFrame) (f : GateFrame),
      init.onsetFrames = 0 →
      (gateFold p init fs).1.isSpeech = false →
      (gateStep p f (gateFold p init fs).1).isSpeech = true →
      p.minOnFrames ≤ (gateTrail p (gateFold p init fs) f).2) ∧
    (∀ (p : GateProfile) (init : GateSt) (pre : List GateFrame)
      (spike : GateFrame) (post : List GateFrame),
      2 ≤ p.minOnFrames → init.isSpeech = false → init.onsetFrames = 0 →
      (∀ g ∈ pre, g.rms < p.absOn) → (∀ g ∈ post, g.rms < p.absOn) →
      (gateRun p init (pre ++ spike :: post)).isSpeech = false) := by
  refine ⟨?_, ?_, ?_, ?_⟩
  · intro p f s hsp hlt
    rw [gateStep_noSpeech p f s hsp]
    have hq : ¬(gateON p (gateFloor f s) ≤ f.rms) := not_le.mpr hlt
    by_cases hflip : p.minOnFrames ≤
        (if gateON p (gateFloor f s) ≤ f.rms then s.onsetFrames + 1 else 0)
    · rw [if_pos hflip]
    · rw [if_neg hflip]
      simp [hq]
  · intro p f s hsp hup
    rw [gateStep_noSpeech p f s hsp] at hup ⊢
    by_cases hflip : p.minOnFrames ≤
        (if gateON p (gateFloor f s) ≤ f.rms then s.onsetFrames + 1 else 0)
    · rw [if_pos hflip]
    · rw [if_neg hflip] at hup
      cases hup
  · intro p init fs f h0 hsp hup
    obtain ⟨hlo, _⟩ := gateFold_inv p init fs h0
    rw [gateStep_noSpeech p f _ hsp] at hup
    simp only [gateTrail]
    by_cases hq : gateON p (gateFloor f (gateFold p init fs).1) ≤ f.rms
    · rw [if_pos ⟨hsp, hq⟩]
      by_cases hflip : p.minOnFrames ≤ (gateFold p init fs).1.onsetFrames + 1
      · exact le_trans hflip (Nat.succ_le_succ (hlo hsp))
      · rw [if_pos hq, if_neg hflip] at hup
        cases hup
    · rw [if_neg (fun hc => hq hc.2)]
      by_cases hflip : p.minOnFrames ≤ 0
      · exact hflip
      · rw [if_neg hq] at hup
        rw [if_neg hflip] at hup
        cases hup
  · intro p init pre spike post hm2 hsp h0 hpre hpost
    have hrw : gateRun p init (pre ++ spike :: post) =
        gateRun p (gateStep p spike (gateRun p init pre)) post := by
      rw [gateRun, List.foldl_append, List.foldl_cons]
      rfl
    rw [hrw]
    obtain ⟨h1, h2⟩ := gateLowRun p pre init (by omega) hpre hsp
    have h20 : (gateRun p init pre).onsetFrames = 0 := by omega
    have hnoflip : ¬(p.minOnFrames ≤
        (if gateON p (gateFloor spike (gateRun p init pre)) ≤ spike.rms
         then (gateRun p init pre).onsetFrames + 1 else 0)) := by
      rw [h20]
      split <;> omega
    have e2 : (gateStep p spike (gateRun p init pre)).isSpeech = false := by
      rw [gateStep_noSpeech p spike _ h1, if_neg hnoflip]
    exact (gateLowRun p post _ (by omega) hpost e2).1

/-- C5 witness: a strict-style profile (absOn 1, multOn 2, minOnFrames 2,
hang 250) started from the reset gate state.  A silent frame resets the
counter; one high frame does not confirm speech but a second consecutive one
does; a lone spike between silent frames never confirms speech. -/
theorem c5_witness :
    ((0 : ℚ) < gateON ⟨1, 1, 2, 1, 2, 250⟩ (gateFloor ⟨0, 0, false⟩ ⟨0, false, 0, 0⟩)) ∧
    ((gateStep ⟨1, 1, 2, 1, 2, 250⟩ ⟨0, 0, false⟩ ⟨0, false, 0, 0⟩).onsetFrames = 0) ∧
    ((gateFold ⟨1, 1, 2, 1, 2, 250⟩ ⟨0, false, 0, 0⟩ [⟨5, 0, false⟩]).1.isSpeech = false) ∧
    ((gateStep ⟨1, 1, 2, 1, 2, 250⟩ ⟨5, 1, false⟩
        (gateFold ⟨1, 1, 2, 1, 2, 250⟩ ⟨0, false, 0, 0⟩ [⟨5, 0, false⟩]).1).isSpeech = true) ∧
    ((gateStep ⟨1, 1, 2, 1, 2, 250⟩ ⟨5, 1, false⟩
        (gateFold ⟨1, 1, 2, 1, 2, 250⟩ ⟨0, false, 0, 0⟩ [⟨5, 0, false⟩]).1).onsetFrames = 0) ∧
    (2 ≤ (gateTrail ⟨1, 1, 2, 1, 2, 250⟩
        (gateFold ⟨1, 1, 2, 1, 2, 250⟩ ⟨0, false, 0, 0⟩ [⟨5, 0, false⟩]) ⟨5, 1, false⟩).2) ∧
    ((gateRun ⟨1, 1, 2, 1, 2, 250⟩ ⟨0, false, 0, 0⟩
        ([⟨0, 0, false⟩] ++ ⟨5, 1, false⟩ :: [⟨0, 2, false⟩])).isSpeech = false) := by
  have hfalse : (gateFold ⟨1, 1, 2, 1, 2, 250⟩ ⟨0, false, 0, 0⟩
      [⟨5, 0, false⟩]).1.isSpeech = false := by
    norm_num [gateFold, gateTrail, gateStep, gateON, gateOFF, gateFloor]
  have hflip : (gateStep ⟨1, 1, 2, 1, 2, 250⟩ ⟨5, 1, false⟩
      (gateFold ⟨1, 1, 2, 1, 2, 250⟩ ⟨0, false, 0, 0⟩ [⟨5, 0, false⟩]).1).isSpeech = true := by
    norm_num [gateFold, gateTrail, gateStep, gateON, gateOFF, gateFloor]
  refine ⟨by norm_num [gateON, gateFloor], ?_, hfalse, hflip, ?_, ?_, ?_⟩
  · exact c5_gate_onset_debounce.1 _ _ _ rfl (by norm_num [gateON, gateFloor])
  · exact c5_gate_onset_debounce.2.1 _ ⟨5, 1, false⟩ _ hfalse hflip
  · exact c5_gate_onset_debounce.2.2.1 _ _ [⟨5, 0, false⟩] ⟨5, 1, false⟩ rfl hfalse hflip
  · refine c5_gate_onset_debounce.2.2.2 _ _ [⟨0, 0, false⟩] ⟨5, 1, false⟩ [⟨0, 2, false⟩]
      (by decide) rfl rfl ?_ ?_
    · intro g hg
      rw [List.mem_singleton] at hg
      subst hg
      norm_num
    · intro g hg
      rw [List.mem_singleton] at hg
      subst hg
      norm_num

/-- C6: once `confirmedSpeech` is true (and the hangover duration is
nonnegative), a frame with RMS at or above the release threshold OFF
refreshes `lastSpeechAt` to the frame's time and keeps `confirmedSpeech`
true; a frame below OFF leaves `lastSpeechAt` unchanged and drops
`confirmedSpeech` exactly when the frame arrives more than `hangMs` after
`lastSpeechAt`. -/
theorem c6_gate_hangover (p : GateProfile) (f : GateFrame) (s : GateSt)
    (hsp : s.isSpeech = true) (hh : 0 ≤ p.hangMs) :
    (gateOFF p (gateFloor f s) ≤ f.rms →
      (gateStep p f s).lastSpeechAt = f.t ∧ (gateStep p f s).isSpeech = true) ∧
    (f.rms < gateOFF p (gateFloor f s) →
      (gateStep p f s).lastSpeechAt = s.lastSpeechAt ∧
      ((gateStep p f s).isSpeech = false ↔ p.hangMs < f.t - s.lastSpeechAt)) := by
  rw [gateStep_speech p f s hsp]
  constructor
  · intro hq
    refine ⟨by rw [if_pos hq], ?_⟩
    show (!decide (p.hangMs < f.t - if gateOFF p (gateFloor f s) ≤ f.rms
      then f.t else s.lastSpeechAt)) = true
    rw [if_pos hq, sub_self]
    simp [not_lt.mpr hh]
  · intro hlt
    have hq : ¬(gateOFF p (gateFloor f s) ≤ f.rms) := not_le.mpr hlt
    refine ⟨by rw [if_neg hq], ?_⟩
    show (!decide (p.hangMs < f.t - if gateOFF p (gateFloor f s) ≤ f.rms
      then f.t else s.lastSpeechAt)) = false ↔ _
    rw [if_neg hq]
    simp

/-- C6 witness: absOff 1, hang 250, confirmed-speech state with
`lastSpeechAt = 0`.  A loud frame at t = 100 refreshes `lastSpeechAt` and
stays in speech; a silent frame at t = 300 (300 > 250 past the last speech
energy) releases the state, while one at t = 200 would not. -/
theorem c6_witness :
    ((0 : ℚ) ≤ 250) ∧
    ((gateStep ⟨1, 1, 2, 1, 2, 250⟩ ⟨5, 100, false⟩ ⟨0, true, 0, 0⟩).lastSpeechAt = 100) ∧
    ((gateStep ⟨1, 1, 2, 1, 2, 250⟩ ⟨5, 100, false⟩ ⟨0, true, 0, 0⟩).isSpeech = true) ∧
    ((gateStep ⟨1, 1, 2, 1, 2, 250⟩ ⟨0, 300, false⟩ ⟨0, true, 0, 0⟩).lastSpeechAt = 0) ∧
    ((gateStep ⟨1, 1, 2, 1, 2, 250⟩ ⟨0, 300, false⟩ ⟨0, true, 0, 0⟩).isSpeech = false ↔
      (250 : ℚ) < 300 - 0) := by
  have hhi := c6_gate_hangover ⟨1, 1, 2, 1, 2, 250⟩ ⟨5, 100, false⟩ ⟨0, true, 0, 0⟩
    rfl (by norm_num)
  have hlo := c6_gate_hangover ⟨1, 1, 2, 1, 2, 250⟩ ⟨0, 300, false⟩ ⟨0, true, 0, 0⟩
    rfl (by norm_num)
  have h1 := hhi.1 (by norm_num [gateOFF, gateFloor])
  have h2 := hlo.2 (by norm_num [gateOFF, gateFloor])
  exact ⟨by norm_num, h1.1, h1.2, h2.1, h2.2⟩

/-! ## C7: utterance accumulator -/

theorem finalTexts_cons (f : Frag) (rest : List Frag) :
    finalTexts (f :: rest) =
      (if f.isFinal && !(jsTrim f.text).isEmpty then [jsTrim f.text] else []) ++
        finalTexts rest := by
  rw [finalTexts, finalTexts]
  by_cases hc : (f.isFinal && !(jsTrim f.text).isEmpty) = true
  · simp [List.filter_cons, hc]
  · have hc' : (f.isFinal && !(jsTrim f.text).isEmpty) = false := by simpa using hc
    simp [List.filter_cons, hc']

theorem accNoFinal (fs : List Frag) (s : AccSt)
    (h : ∀ f ∈ fs, f.speechFinal = false) :
    fs.foldl accStep s = ⟨s.parts ++ finalTexts fs, s.turns⟩ := by
  induction fs generalizing s with
  | nil => simp [finalTexts]
  | cons f rest ih =>
    have hsf : f.speechFinal = false := h f (List.mem_cons_self _ _)
    rw [List.foldl_cons]
    by_cases he : (jsTrim f.text).isEmpty = true
    · have hstep : accStep s f = s := by simp [accStep, he]
      rw [hstep, ih _ (fun x hx => h x (List.mem_cons_of_mem _ hx)),
        finalTexts_cons]
      simp [he]
    · have he' : (jsTrim f.text).isEmpty = false := by
        simpa using he
      by_cases hif : f.isFinal = true
      · have hstep : accStep s f = ⟨s.parts ++ [jsTrim f.text], s.turns⟩ := by
          simp [accStep, he', hif, hsf]
        rw [hstep, ih _ (fun x hx => h x (List.mem_cons_of_mem _ hx)),
          finalTexts_cons]
        simp [he', hif]
      · have hif' : f.isFinal = false := by simpa using hif
        have hstep : accStep s f = s := by
          simp [accStep, he', hif', hsf]
        rw [hstep, ih _ (fun x hx => h x (List.mem_cons_of_mem _ hx)),
          finalTexts_cons]
        simp [hif']

/-- C7 (amended): feeding a fragment sequence whose only utterance-final
fragment is the last one (with nonempty trimmed text) emits exactly one
utterance, whose text is the per-fragment-trimmed texts of the `isFinal`
fragments with nonempty trimmed text, joined with single spaces and trimmed;
a fragment whose own trimmed text is empty is ignored entirely (no part
recorded, no utterance closed, no assistant turn started). -/
theorem c7_utterance_accumulator :
    (∀ (pre : List Frag) (g : Frag),
      (∀ f ∈ pre, f.speechFinal = false) → g.speechFinal = true →
      (jsTrim g.text).isEmpty = false →
      (accRun (pre ++ [g])).turns =
        [jsTrim (List.intercalate [' '] (finalTexts (pre ++ [g])))]) ∧
    (∀ (s : AccSt) (f : Frag), (jsTrim f.text).isEmpty = true →
      accStep s f = s) := by
  constructor
  · intro pre g hpre hg he
    have hsplit : accRun (pre ++ [g]) = accStep (pre.foldl accStep ⟨[], []⟩) g := by
      rw [accRun, List.foldl_append, List.foldl_cons, List.foldl_nil]
    rw [hsplit, accNoFinal pre _ hpre]
    have hft : finalTexts (pre ++ [g]) =
        finalTexts pre ++ (if g.isFinal && !(jsTrim g.text).isEmpty
          then [jsTrim g.text] else []) := by
      rw [finalTexts, finalTexts, List.filter_append, List.map_append]
      congr 1
      by_cases hc : (g.isFinal && !(jsTrim g.text).isEmpty) = true
      · rw [if_pos hc]
        simp [List.filter, hc]
      · rw [if_neg hc]
        have : (g.isFinal && !(jsTrim g.text).isEmpty) = false := by simpa using hc
        simp [List.filter, this]
    by_cases hif : g.isFinal = true
    · simp [accStep, he, hg, hif, hft]
    · have hif' : g.isFinal = false := by simpa using hif
      simp [accStep, he, hg, hif', hft]
  · intro s f h
    simp [accStep, h]

/-- C7 counterexample to the claim as stated: fragments
`{" hello ", final}` then `{"world", final, utterance-final}`.  The code
trims each fragment before collecting it and emits `"hello world"`, but the
claim's literal reading — the fragments' texts joined with single spaces and
then trimmed — gives `"hello  world"` (the inner padding survives an outer
trim).  The two differ, so the emitted text is not the join of the raw
`isFinal` texts. -/
theorem c7_counterexample :
    (accRun [⟨(r" hello ").toList, true, false⟩,
             ⟨(r"world").toList, true, true⟩]).turns ≠
      [claimJoinedText [⟨(r" hello ").toList, true, false⟩,
                        ⟨(r"world").toList, true, true⟩]] := by
  decide

/-- C7 witness: the amended theorem applied to the same two fragments,
checking the emitted utterance is exactly `"hello world"`. -/
theorem c7_witness :
    ((jsTrim (r"world").toList).isEmpty = false) ∧
    ((accRun ([⟨(r" hello ").toList, true, false⟩] ++
        [⟨(r"world").toList, true, true⟩])).turns =
      [jsTrim (List.intercalate [' ']
        (finalTexts ([⟨(r" hello ").toList, true, false⟩] ++
          [⟨(r"world").toList, true, true⟩])))]) ∧
    ((accRun ([⟨(r" hello ").toList, true, false⟩] ++
        [⟨(r"world").toList, true, true⟩])).turns = [(r"hello world").toList]) := by
  refine ⟨by decide, ?_, by decide⟩
  exact c7_utterance_accumulator.1 [⟨(r" hello ").toList, true, false⟩]
    ⟨(r"world").toList, true, true⟩ (by decide) rfl (by decide)

/-! ## C8: model-input message list -/

/-- C8 (amended): the model-input list is exactly one system message carrying
the session system prompt, then the last at-most-10 prior turns as
role/content pairs (a suffix of the conversation log of length
`min 10 |log|`), then one user message whose content is `clampText(userText,
5000)`: the utterance text itself when it has at most 5000 characters,
otherwise its first 5000 characters with an appended ellipsis — 5001
characters, not 5000. -/
theorem c8_llm_messages (sysPrompt : List Char) (msgs : List ChatMsg)
    (userText : List Char) :
    (buildLlmMessages sysPrompt msgs userText).head? =
      some ⟨ChatRole.system, sysPrompt⟩ ∧
    (buildLlmMessages sysPrompt msgs userText).getLast? =
      some ⟨ChatRole.user, clampText userText 5000⟩ ∧
    ((buildLlmMessages sysPrompt msgs userText).drop 1).dropLast =
      (sliceLast10 msgs).map (fun m => ⟨m.role, m.text⟩) ∧
    (sliceLast10 msgs).length = min 10 msgs.length ∧
    sliceLast10 msgs <:+ msgs ∧
    (userText.length ≤ 5000 → clampText userText 5000 = userText) ∧
    (5000 < userText.length →
      clampText userText 5000 = userText.take 5000 ++ ['…'] ∧
      (clampText userText 5000).length = 5001) := by
  refine ⟨rfl, ?_, ?_, ?_, ?_, ?_, ?_⟩
  · show (⟨ChatRole.system, sysPrompt⟩ ::
      ((sliceLast10 msgs).map (fun m => ⟨m.role, m.text⟩) ++
        [⟨ChatRole.user, clampText userText 5000⟩]) : List LlmMsg).getLast? = _
    rw [← List.cons_append, List.getLast?_concat]
  · show ((sliceLast10 msgs).map (fun m => ⟨m.role, m.text⟩) ++
      [⟨ChatRole.user, clampText userText 5000⟩] : List LlmMsg).dropLast = _
    exact List.dropLast_concat
  · rw [sliceLast10, List.length_drop]
    omega
  · exact List.drop_suffix _ _
  · intro h
    simp [clampText, h]
  · intro h
    have h' : ¬(userText.length ≤ 5000) := by omega
    constructor
    · simp [clampText, h']
    · simp only [clampText, if_neg h', List.length_append, List.length_take,
        List.length_cons, List.length_nil]
      omega

/-- C8 counterexample to "at most 5000 characters": a 5001-character
utterance is clamped to its first 5000 characters plus an ellipsis, i.e. the
user-message content has 5001 characters, exceeding 5000. -/
theorem c8_counterexample :
    ¬((clampText (List.replicate 5001 'a') 5000).length ≤ 5000) := by
  have h : (clampText (List.replicate 5001 'a') 5000).length = 5001 := by
    rw [clampText, List.length_replicate]
    rw [if_neg (by omega : ¬(5001 ≤ 5000))]
    simp only [List.length_append, List.length_take, List.length_cons,
      List.length_nil, List.length_replicate]
    omega
  omega

/-- C8 witness: a concrete prompt, a 3-turn log, and a short utterance — the
message list is system prompt, all 3 turns, then the unclamped user text. -/
theorem c8_witness :
    ((r"hello").toList.length ≤ 5000) ∧
    ((buildLlmMessages (r"be brief").toList
        [⟨ChatRole.user, (r"hi").toList⟩, ⟨ChatRole.assistant, (r"yo").toList⟩,
         ⟨ChatRole.user, (r"ok").toList⟩]
        (r"hello").toList).head? = some ⟨ChatRole.system, (r"be brief").toList⟩) ∧
    (clampText (r"hello").toList 5000 = (r"hello").toList) ∧
    ((buildLlmMessages (r"be brief").toList
        [⟨ChatRole.user, (r"hi").toList⟩, ⟨ChatRole.assistant, (r"yo").toList⟩,
         ⟨ChatRole.user, (r"ok").toList⟩]
        (r"hello").toList).getLast? = some ⟨ChatRole.user, (r"hello").toList⟩) := by
  have h := c8_llm_messages (r"be brief").toList
    [⟨ChatRole.user, (r"hi").toList⟩, ⟨ChatRole.assistant, (r"yo").toList⟩,
     ⟨ChatRole.user, (r"ok").toList⟩] (r"hello").toList
  have hshort : (r"hello").toList.length ≤ 5000 := by decide
  have hclamp := h.2.2.2.2.2.1 hshort
  refine ⟨hshort, h.1, hclamp, ?_⟩
  rw [← hclamp]
  exact h.2.1

/-! ## String lemmas for the chunker (C3, C4) -/

theorem head?_dropWhile_not (p : Char → Bool) (l : List Char) (c : Char)
    (h : (l.dropWhile p).head? = some c) : p c = false := by
  induction l with
  | nil => cases h
  | cons a r ih =>
    rw [List.dropWhile_cons] at h
    split at h
    · exact ih h
    · rename_i hp
      rw [List.head?_cons] at h
      have := Option.some.inj h
      subst this
      simpa using hp

theorem jsTrim_head (l : List Char) (c : Char)
    (h : (jsTrim l).head? = some c) : isJsWs c = false :=
  head?_dropWhile_not isJsWs (jsTrimEnd l) c h

theorem jsTrimStart_head (l : List Char) (c : Char)
    (h : (jsTrimStart l).head? = some c) : isJsWs c = false :=
  head?_dropWhile_not isJsWs l c h

theorem jsTrimEnd_getLast (l : List Char) (c : Char)
    (h : (jsTrimEnd l).getLast? = some c) : isJsWs c = false := by
  rw [jsTrimEnd, List.getLast?_reverse] at h
  exact head?_dropWhile_not isJsWs l.reverse c h

theorem suffix_getLast? {l₁ l₂ : List Char} (hs : l₂ <:+ l₁) {c : Char}
    (h : l₂.getLast? = some c) : l₁.getLast? = some c := by
  obtain ⟨pre, rfl⟩ := hs
  rw [List.getLast?_append_of_ne_nil]
  · exact h
  · intro hnil
    rw [hnil] at h
    cases h

theorem jsTrim_getLast (l : List Char) (c : Char)
    (h : (jsTrim l).getLast? = some c) : isJsWs c = false := by
  have hs : jsTrim l <:+ jsTrimEnd l := List.dropWhile_suffix _
  exact jsTrimEnd_getLast l c (suffix_getLast? hs h)

theorem jsTrimStart_eq_self (l : List Char)
    (h : ∀ c, l.head? = some c → isJsWs c = false) : jsTrimStart l = l := by
  cases l with
  | nil => rfl
  | cons a r => simp [jsTrimStart, List.dropWhile_cons, h a rfl]

theorem jsTrimEnd_eq_self (l : List Char)
    (h : ∀ c, l.getLast? = some c → isJsWs c = false) : jsTrimEnd l = l := by
  rw [jsTrimEnd]
  have hrw : l.reverse.dropWhile isJsWs = l.reverse := by
    apply jsTrimStart_eq_self
    intro c hc
    rw [List.head?_reverse] at hc
    exact h c hc
  rw [hrw, List.reverse_reverse]

theorem jsTrim_eq_self (l : List Char)
    (hh : ∀ c, l.head? = some c → isJsWs c = false)
    (hl : ∀ c, l.getLast? = some c → isJsWs c = false) : jsTrim l = l := by
  rw [jsTrim, jsTrimEnd_eq_self l hl]
  exact jsTrimStart_eq_self l hh

theorem jsTrim_idem (l : List Char) : jsTrim (jsTrim l) = jsTrim l := by
  by_cases hn : jsTrim l = []
  · rw [hn]
    rfl
  · exact jsTrim_eq_self _ (fun c h => jsTrim_head l c h)
      (fun c h => jsTrim_getLast l c h)

theorem jsTrim_length_le (l : List Char) : (jsTrim l).length ≤ l.length := by
  have h1 : (jsTrimEnd l).length ≤ l.length := by
    rw [jsTrimEnd, List.length_reverse]
    have := (List.dropWhile_suffix (l := l.reverse) (p := isJsWs)).length_le
    simpa using this
  have h2 : (jsTrim l).length ≤ (jsTrimEnd l).length :=
    (List.dropWhile_suffix _).length_le
  omega

theorem trimStart_decomp (l : List Char) :
    l = l.takeWhile isJsWs ++ jsTrimStart l :=
  (List.takeWhile_append_dropWhile _ _).symm

theorem trimEnd_decomp (l : List Char) :
    l = jsTrimEnd l ++ (l.reverse.takeWhile isJsWs).reverse := by
  conv_lhs => rw [← List.reverse_reverse l,
    ← List.takeWhile_append_dropWhile isJsWs l.reverse]
  rw [List.reverse_append]
  rfl

theorem head?_take_succ (l : List Char) (n : Nat) :
    (l.take (n + 1)).head? = l.head? := by
  cases l with
  | nil => rfl
  | cons a r => simp [List.take_succ_cons]

theorem getLast?_take_hit (l : List Char) (n : Nat) (hn : n < l.length) :
    (l.take (n + 1)).getLast? = some (l.getD n ' ') := by
  rw [List.take_succ, List.getD_eq_getElem?_getD, List.getElem?_eq_getElem hn]
  exact List.getLast?_concat _

theorem jsTrimEnd_ne_nil (l : List Char) (c : Char) (hc : l.head? = some c)
    (hw : isJsWs c = false) : jsTrimEnd l ≠ [] := by
  rw [jsTrimEnd]
  intro hnil
  have : l.reverse.dropWhile isJsWs = [] := by
    have := congrArg List.reverse hnil
    simpa using this
  rw [List.dropWhile_eq_nil_iff] at this
  have hcmem : c ∈ l.reverse := by
    rw [List.mem_reverse]
    exact List.mem_of_mem_head? hc
  rw [this c hcmem] at hw
  cases hw

theorem lastIdxAux_append (p : Char → Bool) (xs ys : List Char) (i : Nat) (acc : Int) :
    lastIdxAux p i acc (xs ++ ys) =
      lastIdxAux p (i + xs.length) (lastIdxAux p i acc xs) ys := by
  induction xs generalizing i acc with
  | nil => simp [lastIdxAux]
  | cons a r ih =>
    show lastIdxAux p (i + 1) _ (r ++ ys) = _
    rw [ih]
    rw [show i + (a :: r).length = (i + 1) + r.length by
      simp [List.length_cons]
      omega]
    rfl

theorem lastIdx_snoc (p : Char → Bool) (xs : List Char) (c : Char) :
    lastIdxP p (xs ++ [c]) =
      if p c then (xs.length : Int) else lastIdxP p xs := by
  rw [lastIdxP, lastIdxAux_append]
  simp [lastIdxAux, lastIdxP]

theorem lastHit_snoc (p : Char → Bool) (xs : List Char) (c : Char) :
    lastHitIdx p (xs ++ [c]) =
      if p c then some xs.length else lastHitIdx p xs := by
  rw [lastHitIdx, List.reverse_append]
  simp only [List.reverse_singleton, List.singleton_append]
  rw [firstHit]
  by_cases hc : p c = true
  · simp [hc, List.length_append]
  · simp only [hc, Bool.false_eq_true, ite_false, lastHitIdx]
    cases hfh : firstHit p xs.reverse with
    | none => simp
    | some j =>
      simp only [lastHitIdx, hfh, Option.map_map, Option.map_some',
        Function.comp, List.length_append, List.length_singleton,
        Option.some.injEq]
      omega

theorem lastIdx_bridge (p : Char → Bool) (l : List Char) :
    lastIdxP p l = optIdxToInt (lastHitIdx p l) := by
  induction l using List.reverseRecOn with
  | nil => rfl
  | append_singleton xs c ih =>
    rw [lastIdx_snoc, lastHit_snoc]
    by_cases hc : p c = true
    · simp [hc, optIdxToInt]
    · simp [hc, ih]

theorem lastIdxP_lt_length (p : Char → Bool) (l : List Char) :
    lastIdxP p l < (l.length : Int) := by
  induction l using List.reverseRecOn with
  | nil => simp [lastIdxP, lastIdxAux]
  | append_singleton xs c ih =>
    rw [lastIdx_snoc]
    rw [List.length_append]
    by_cases hc : p c = true <;> simp [hc] <;> push_cast <;> omega

theorem lastIdxP_or (p q : Char → Bool) (l : List Char) :
    lastIdxP (fun c => p c || q c) l = max (lastIdxP p l) (lastIdxP q l) := by
  induction l using List.reverseRecOn with
  | nil => simp [lastIdxP, lastIdxAux]
  | append_singleton xs c ih =>
    rw [lastIdx_snoc, lastIdx_snoc, lastIdx_snoc]
    have hp := lastIdxP_lt_length p xs
    have hq := lastIdxP_lt_length q xs
    by_cases h1 : p c = true <;> by_cases h2 : q c = true
    · simp [h1, h2]
    · simp only [h1, h2, Bool.true_or, ite_true, Bool.false_eq_true, ite_false]
      rw [max_eq_left (le_of_lt hq)]
    · simp only [h1, h2, Bool.or_true, ite_true, Bool.false_eq_true, ite_false]
      rw [max_eq_right (le_of_lt hp)]
    · simp only [h1, h2, Bool.or_false, Bool.false_eq_true, ite_false]
      exact ih

theorem firstHit_spec (p : Char → Bool) (l : List Char) (j : Nat)
    (h : firstHit p l = some j) : j < l.length ∧ p (l.getD j ' ') = true := by
  induction l generalizing j with
  | nil => cases h
  | cons a r ih =>
    rw [firstHit] at h
    split at h
    · rename_i hp
      have := Option.some.inj h
      subst this
      exact ⟨Nat.succ_pos _, by simpa using hp⟩
    · cases hfh : firstHit p r with
      | none =>
        rw [hfh] at h
        cases h
      | some j' =>
        rw [hfh] at h
        simp only [Option.map_some'] at h
        have := Option.some.inj h
        subst this
        obtain ⟨hj, hpj⟩ := ih j' hfh
        exact ⟨Nat.succ_lt_succ hj, by simpa using hpj⟩

theorem lastHit_spec (p : Char → Bool) (l : List Char) (n : Nat)
    (h : lastHitIdx p l = some n) :
    n < l.length ∧ p (l.getD n ' ') = true := by
  rw [lastHitIdx] at h
  cases hfh : firstHit p l.reverse with
  | none =>
    rw [hfh] at h
    cases h
  | some j =>
    rw [hfh] at h
    simp only [Option.map_some'] at h
    have hn := Option.some.inj h
    obtain ⟨hj, hpj⟩ := firstHit_spec p l.reverse j hfh
    rw [List.length_reverse] at hj
    have hnlt : n < l.length := by omega
    refine ⟨hnlt, ?_⟩
    have hrev : l.reverse.getD j ' ' = l.getD (l.length - 1 - j) ' ' := by
      rw [List.getD_eq_getElem?_getD, List.getD_eq_getElem?_getD]
      rw [List.getElem?_eq_getElem (by simpa using hj),
        List.getElem?_eq_getElem (by omega)]
      simp only [Option.getD_some]
      exact List.getElem_reverse _
    rw [hrev] at hpj
    rw [← hn]
    exact hpj

theorem isSentencePunct_not_ws (c : Char) (h : isSentencePunct c = true) :
    isJsWs c = false := by
  rw [isSentencePunct] at h
  rcases Bool.or_eq_true_iff.mp h with h1 | h1
  · rcases Bool.or_eq_true_iff.mp h1 with h2 | h2
    · rcases Bool.or_eq_true_iff.mp h2 with h3 | h3 <;>
        · rw [beq_iff_eq] at h3
          subst h3
          decide
    · rw [beq_iff_eq] at h2
      subst h2
      decide
  · rw [beq_iff_eq] at h1
    subst h1
    decide

theorem isSoftPunct_not_ws (c : Char) (h : isSoftPunct c = true) :
    isJsWs c = false := by
  rw [isSoftPunct] at h
  rcases Bool.or_eq_true_iff.mp h with h1 | h1 <;>
    · rw [beq_iff_eq] at h1
      subst h1
      decide

/-! ## C4: chunker cut-preference order -/

theorem chunker_space_eq (t : List Char) :
    (if 50 < lastIdxP (fun c => c == ' ') t then
      (some (jsTrim (t.take (lastIdxP (fun c => c == ' ') t).toNat)),
       jsTrimStart (t.drop (lastIdxP (fun c => c == ' ') t).toNat))
     else (some (jsTrim t), ([] : List Char))) =
      chunkerSpec.chunkerSpecSpace t := by
  rw [chunkerSpec.chunkerSpecSpace, lastIdx_bridge]
  cases hsp : lastHitIdx (fun c => c == ' ') t with
  | some r =>
    simp only [optIdxToInt]
    by_cases h50 : 50 < r
    · have h50' : (50 : Int) < (r : Int) := by exact_mod_cast h50
      rw [if_pos h50', if_pos h50]
      have hcast : ((r : Int)).toNat = r := by omega
      rw [hcast]
    · have h50' : ¬((50 : Int) < (r : Int)) := by exact_mod_cast h50
      rw [if_neg h50', if_neg h50]
  | none =>
    simp only [optIdxToInt]
    rw [if_neg (by norm_num : ¬((50 : Int) < -1))]

theorem chunker_phrase_eq (t buf : List Char) :
    (if 90 ≤ t.length then
      if 40 < max (lastIdxP (fun c => c == ',') t) (lastIdxP (fun c => c == ';') t) then
        (some (jsTrim (t.take
          (max (lastIdxP (fun c => c == ',') t) (lastIdxP (fun c => c == ';') t) + 1).toNat)),
         jsTrimStart (t.drop
          (max (lastIdxP (fun c => c == ',') t) (lastIdxP (fun c => c == ';') t) + 1).toNat))
      else
        if 50 < lastIdxP (fun c => c == ' ') t then
          (some (jsTrim (t.take (lastIdxP (fun c => c == ' ') t).toNat)),
           jsTrimStart (t.drop (lastIdxP (fun c => c == ' ') t).toNat))
        else (some (jsTrim t), ([] : List Char))
     else (none, buf)) = chunkerSpec.chunkerSpecPhrase t buf := by
  rw [chunkerSpec.chunkerSpecPhrase]
  by_cases h90 : 90 ≤ t.length
  · rw [if_pos h90, if_pos h90]
    have hmax : max (lastIdxP (fun c => c == ',') t) (lastIdxP (fun c => c == ';') t) =
        lastIdxP isSoftPunct t := (lastIdxP_or _ _ t).symm
    rw [hmax, lastIdx_bridge isSoftPunct t]
    cases hss : lastHitIdx isSoftPunct t with
    | some q =>
      simp only [optIdxToInt]
      by_cases h40 : 40 < q
      · have h40' : (40 : Int) < (q : Int) := by exact_mod_cast h40
        rw [if_pos h40', if_pos h40]
        have hcast : ((q : Int) + 1).toNat = q + 1 := by omega
        rw [hcast]
      · have h40' : ¬((40 : Int) < (q : Int)) := by exact_mod_cast h40
        rw [if_neg h40', if_neg h40]
        exact chunker_space_eq t
    | none =>
      simp only [optIdxToInt]
      rw [if_neg (by norm_num : ¬((40 : Int) < -1))]
      exact chunker_space_eq t
  · rw [if_neg h90, if_neg h90]

/-- C4: the streaming chunker cuts exactly in the spec's stated preference
order — at the last sentence-terminal mark (`.`, `!`, `?`, `।`) when its
position is at or beyond offset 20; otherwise, only once the trimmed buffer
has at least 90 characters, after the last comma/semicolon beyond offset 40,
else at the last space beyond offset 50, else the entire trimmed buffer; and
otherwise yields no chunk.  Stated as: the source function equals the
function written from the spec's words. -/
theorem c4_chunker_cut_preferences (buf : List Char) :
    extractSpeakChunk buf = chunkerSpec buf := by
  simp only [extractSpeakChunk, chunkerSpec]
  by_cases he : (jsTrim buf).isEmpty = true
  · simp only [he, ite_true]
  · simp only [he, Bool.false_eq_true, ite_false]
    rw [lastIdx_bridge isSentencePunct (jsTrim buf)]
    cases hs : lastHitIdx isSentencePunct (jsTrim buf) with
    | some n =>
      simp only [optIdxToInt]
      by_cases h20 : 20 ≤ n
      · have h20' : (20 : Int) ≤ (n : Int) := by exact_mod_cast h20
        rw [if_pos h20', if_pos h20]
        have hcast : ((n : Int) + 1).toNat = n + 1 := by omega
        rw [hcast]
      · have h20' : ¬((20 : Int) ≤ (n : Int)) := by exact_mod_cast h20
        rw [if_neg h20', if_neg h20]
        exact chunker_phrase_eq (jsTrim buf) buf
    | none =>
      simp only [optIdxToInt]
      rw [if_neg (by norm_num : ¬((20 : Int) ≤ -1))]
      exact chunker_phrase_eq (jsTrim buf) buf

/-! ## C3: chunker round-trip (up to whitespace dropped at cut points) -/

theorem cut_decomp_punct (t : List Char) (n : Nat)
    (hts : jsTrim t = t) (htne : t ≠ []) (hn : n < t.length)
    (hpw : isJsWs (t.getD n ' ') = false) :
    jsTrim (t.take (n + 1)) ≠ [] ∧
    jsTrim (jsTrimStart (t.drop (n + 1))) = jsTrimStart (t.drop (n + 1)) ∧
    ∃ w, (∀ ch ∈ w, isJsWs ch = true) ∧
      t = jsTrim (t.take (n + 1)) ++ w ++ jsTrimStart (t.drop (n + 1)) := by
  have hh : ∀ c, t.head? = some c → isJsWs c = false :=
    fun c hc => jsTrim_head t c (by rw [hts]; exact hc)
  have hl : ∀ c, t.getLast? = some c → isJsWs c = false :=
    fun c hc => jsTrim_getLast t c (by rw [hts]; exact hc)
  have htake_last : (t.take (n + 1)).getLast? = some (t.getD n ' ') :=
    getLast?_take_hit t n hn
  have htake_head : (t.take (n + 1)).head? = t.head? := head?_take_succ t n
  have hchunk_eq : jsTrim (t.take (n + 1)) = t.take (n + 1) := by
    apply jsTrim_eq_self
    · intro c hc
      exact hh c (htake_head ▸ hc)
    · intro c hc
      rw [htake_last] at hc
      exact (Option.some.inj hc) ▸ hpw
  have hchunk_ne : t.take (n + 1) ≠ [] := by
    intro hx
    have hx' := congrArg List.length hx
    rw [List.length_take] at hx'
    simp only [List.length_nil] at hx'
    omega
  have hsuffix : jsTrimStart (t.drop (n + 1)) <:+ t :=
    (List.dropWhile_suffix _).trans (List.drop_suffix _ _)
  have hrest_trim : jsTrim (jsTrimStart (t.drop (n + 1))) =
      jsTrimStart (t.drop (n + 1)) := by
    by_cases hre : jsTrimStart (t.drop (n + 1)) = []
    · rw [hre]
      rfl
    · apply jsTrim_eq_self
      · exact fun c hc => jsTrimStart_head _ c hc
      · exact fun c hc => hl c (suffix_getLast? hsuffix hc)
  refine ⟨by rw [hchunk_eq]; exact hchunk_ne, hrest_trim,
    (t.drop (n + 1)).takeWhile isJsWs,
    fun ch hch => List.mem_takeWhile_imp hch, ?_⟩
  rw [hchunk_eq]
  conv_lhs => rw [← List.take_append_drop (n + 1) t]
  rw [List.append_assoc]
  congr 1
  exact trimStart_decomp _

theorem cut_decomp_space (t : List Char) (n : Nat)
    (hts : jsTrim t = t) (htne : t ≠ []) (hn : n < t.length) (hn1 : 1 ≤ n) :
    jsTrim (t.take n) ≠ [] ∧
    jsTrim (jsTrimStart (t.drop n)) = jsTrimStart (t.drop n) ∧
    ∃ w, (∀ ch ∈ w, isJsWs ch = true) ∧
      t = jsTrim (t.take n) ++ w ++ jsTrimStart (t.drop n) := by
  have hh : ∀ c, t.head? = some c → isJsWs c = false :=
    fun c hc => jsTrim_head t c (by rw [hts]; exact hc)
  have hl : ∀ c, t.getLast? = some c → isJsWs c = false :=
    fun c hc => jsTrim_getLast t c (by rw [hts]; exact hc)
  obtain ⟨m, rfl⟩ : ∃ m, n = m + 1 := ⟨n - 1, by omega⟩
  have htake_head : (t.take (m + 1)).head? = t.head? := head?_take_succ t m
  obtain ⟨c0, t', ht0⟩ := List.exists_cons_of_ne_nil htne
  have hhead : t.head? = some c0 := by rw [ht0]; rfl
  have hc0 : isJsWs c0 = false := hh c0 hhead
  have hxhead : (t.take (m + 1)).head? = some c0 := by rw [htake_head, hhead]
  have hend_ne : jsTrimEnd (t.take (m + 1)) ≠ [] :=
    jsTrimEnd_ne_nil _ c0 hxhead hc0
  have hend_head : (jsTrimEnd (t.take (m + 1))).head? = some c0 := by
    have hdc := trimEnd_decomp (t.take (m + 1))
    have h2 : (t.take (m + 1)).head? =
        (jsTrimEnd (t.take (m + 1))).head?.or
          ((t.take (m + 1)).reverse.takeWhile isJsWs).reverse.head? := by
      conv_lhs => rw [hdc]
      exact List.head?_append
    rw [hxhead] at h2
    cases hh2 : (jsTrimEnd (t.take (m + 1))).head? with
    | none =>
      exact absurd (List.head?_eq_none_iff.mp hh2) hend_ne
    | some d =>
      rw [hh2] at h2
      simpa using h2.symm
  have hchunk_eq : jsTrim (t.take (m + 1)) = jsTrimEnd (t.take (m + 1)) := by
    rw [jsTrim]
    apply jsTrimStart_eq_self
    intro c hc
    rw [hend_head] at hc
    exact (Option.some.inj hc) ▸ hc0
  have hchunk_ne : jsTrim (t.take (m + 1)) ≠ [] := by
    rw [hchunk_eq]
    exact hend_ne
  have hsuffix : jsTrimStart (t.drop (m + 1)) <:+ t :=
    (List.dropWhile_suffix _).trans (List.drop_suffix _ _)
  have hrest_trim : jsTrim (jsTrimStart (t.drop (m + 1))) =
      jsTrimStart (t.drop (m + 1)) := by
    by_cases hre : jsTrimStart (t.drop (m + 1)) = []
    · rw [hre]
      rfl
    · apply jsTrim_eq_self
      · exact fun c hc => jsTrimStart_head _ c hc
      · exact fun c hc => hl c (suffix_getLast? hsuffix hc)
  refine ⟨hchunk_ne, hrest_trim,
    ((t.take (m + 1)).reverse.takeWhile isJsWs).reverse ++
      (t.drop (m + 1)).takeWhile isJsWs, ?_, ?_⟩
  · intro ch hch
    rcases List.mem_append.mp hch with h1 | h1
    · exact List.mem_takeWhile_imp (List.mem_reverse.mp h1)
    · exact List.mem_takeWhile_imp h1
  · rw [hchunk_eq]
    conv_lhs => rw [← List.take_append_drop (m + 1) t]
    conv_lhs => rw [trimEnd_decomp (t.take (m + 1)), trimStart_decomp (t.drop (m + 1))]
    simp [List.append_assoc]

theorem extract_step (buf c rest : List Char)
    (h : extractSpeakChunk buf = (some c, rest)) :
    c ≠ [] ∧ jsTrim rest = rest ∧ rest.length < buf.length ∧
    ∃ w, (∀ ch ∈ w, isJsWs ch = true) ∧ jsTrim buf = c ++ w ++ rest := by
  have hts : jsTrim (jsTrim buf) = jsTrim buf := jsTrim_idem buf
  have hlenle : (jsTrim buf).length ≤ buf.length := jsTrim_length_le buf
  simp only [extractSpeakChunk] at h
  by_cases he : (jsTrim buf).isEmpty = true
  · rw [if_pos he] at h
    simp at h
  · rw [if_neg he] at h
    have htne : jsTrim buf ≠ [] := fun hx => he (by rw [hx]; rfl)
    by_cases h20 : 20 ≤ lastIdxP isSentencePunct (jsTrim buf)
    · rw [if_pos h20] at h
      have hb := lastIdx_bridge isSentencePunct (jsTrim buf)
      cases hsx : lastHitIdx isSentencePunct (jsTrim buf) with
      | none =>
        rw [hsx] at hb
        rw [hb] at h20
        norm_num [optIdxToInt] at h20
      | some n =>
        rw [hsx] at hb
        simp only [optIdxToInt] at hb
        obtain ⟨hn, hp⟩ := lastHit_spec _ _ _ hsx
        have hpw := isSentencePunct_not_ws _ hp
        have hcut : (lastIdxP isSentencePunct (jsTrim buf) + 1).toNat = n + 1 := by
          rw [hb]
          omega
        rw [hcut, Prod.mk.injEq] at h
        obtain ⟨h1, h2⟩ := h
        have hc := Option.some.inj h1
        obtain ⟨hne, hrt, w, hw, hdec⟩ := cut_decomp_punct (jsTrim buf) n hts htne hn hpw
        subst hc
        subst h2
        refine ⟨hne, hrt, ?_, w, hw, hdec⟩
        have hlen := congrArg List.length hdec
        simp only [List.length_append] at hlen
        have hcne : 1 ≤ (jsTrim ((jsTrim buf).take (n + 1))).length :=
          Nat.one_le_iff_ne_zero.mpr (by simpa [List.length_eq_zero] using hne)
        omega
    · rw [if_neg h20] at h
      by_cases h90 : 90 ≤ (jsTrim buf).length
      · rw [if_pos h90] at h
        have hor : max (lastIdxP (fun x => x == ',') (jsTrim buf))
            (lastIdxP (fun x => x == ';') (jsTrim buf)) =
            lastIdxP isSoftPunct (jsTrim buf) := (lastIdxP_or _ _ _).symm
        rw [hor] at h
        by_cases h40 : 40 < lastIdxP isSoftPunct (jsTrim buf)
        · rw [if_pos h40] at h
          have hb := lastIdx_bridge isSoftPunct (jsTrim buf)
          cases hsx : lastHitIdx isSoftPunct (jsTrim buf) with
          | none =>
            rw [hsx] at hb
            rw [hb] at h40
            norm_num [optIdxToInt] at h40
          | some n =>
            rw [hsx] at hb
            simp only [optIdxToInt] at hb
            obtain ⟨hn, hp⟩ := lastHit_spec _ _ _ hsx
            have hpw := isSoftPunct_not_ws _ hp
            have hcut : (lastIdxP isSoftPunct (jsTrim buf) + 1).toNat = n + 1 := by
              rw [hb]
              omega
            rw [hcut, Prod.mk.injEq] at h
            obtain ⟨h1, h2⟩ := h
            have hc := Option.some.inj h1
            obtain ⟨hne, hrt, w, hw, hdec⟩ :=
              cut_decomp_punct (jsTrim buf) n hts htne hn hpw
            subst hc
            subst h2
            refine ⟨hne, hrt, ?_, w, hw, hdec⟩
            have hlen := congrArg List.length hdec
            simp only [List.length_append] at hlen
            have hcne : 1 ≤ (jsTrim ((jsTrim buf).take (n + 1))).length :=
              Nat.one_le_iff_ne_zero.mpr (by simpa [List.length_eq_zero] using hne)
            omega
        · rw [if_neg h40] at h
          by_cases h50 : 50 < lastIdxP (fun x => x == ' ') (jsTrim buf)
          · rw [if_pos h50] at h
            have hb := lastIdx_bridge (fun x => x == ' ') (jsTrim buf)
            cases hsx : lastHitIdx (fun x => x == ' ') (jsTrim buf) with
            | none =>
              rw [hsx] at hb
              rw [hb] at h50
              norm_num [optIdxToInt] at h50
            | some n =>
              rw [hsx] at hb
              simp only [optIdxToInt] at hb
              obtain ⟨hn, _⟩ := lastHit_spec _ _ _ hsx
              have hn51 : 50 < n := by
                rw [hb] at h50
                exact_mod_cast h50
              have hcut : (lastIdxP (fun x => x == ' ') (jsTrim buf)).toNat = n := by
                rw [hb]
                omega
              rw [hcut, Prod.mk.injEq] at h
              obtain ⟨h1, h2⟩ := h
              have hc := Option.some.inj h1
              obtain ⟨hne, hrt, w, hw, hdec⟩ :=
                cut_decomp_space (jsTrim buf) n hts htne hn (by omega)
              subst hc
              subst h2
              refine ⟨hne, hrt, ?_, w, hw, hdec⟩
              have hlen := congrArg List.length hdec
              simp only [List.length_append] at hlen
              have hcne : 1 ≤ (jsTrim ((jsTrim buf).take n)).length :=
                Nat.one_le_iff_ne_zero.mpr (by simpa [List.length_eq_zero] using hne)
              omega
          · rw [if_neg h50, Prod.mk.injEq] at h
            obtain ⟨h1, h2⟩ := h
            have hc := Option.some.inj h1
            subst hc
            subst h2
            refine ⟨by rw [hts]; exact htne, rfl, ?_, [], by simp, by simp [hts]⟩
            have : 1 ≤ (jsTrim buf).length :=
              Nat.one_le_iff_ne_zero.mpr (by simpa [List.length_eq_zero] using htne)
            simp only [List.length_nil]
            omega
      · rw [if_neg h90] at h
        simp at h

/-- C3 (amended): when the chunker yields no chunk it returns the buffer
unchanged as `rest`; when it yields a chunk, the chunk is nonempty and the
trimmed buffer is exactly the chunk, a (possibly empty) run of whitespace,
then the rest — i.e. `rest` complements the chunk up to whitespace dropped
at the cut; consequently, driving any buffer to exhaustion (with the
end-of-stream leftover flush) produces chunks that reconstruct the trimmed
input exactly up to whitespace dropped between chunks: no non-whitespace
character is lost, duplicated, or reordered, and nothing else is inserted. -/
theorem c3_chunker_reconstruction :
    (∀ buf, (extractSpeakChunk buf).1 = none → (extractSpeakChunk buf).2 = buf) ∧
    (∀ buf c rest, extractSpeakChunk buf = (some c, rest) →
      c ≠ [] ∧ ∃ w, (∀ ch ∈ w, isJsWs ch = true) ∧ jsTrim buf = c ++ w ++ rest) ∧
    (∀ fuel buf, buf.length ≤ fuel →
      WsInterleaved (chunkAll fuel buf) (jsTrim buf)) := by
  refine ⟨?_, ?_, ?_⟩
  · intro buf
    simp only [extractSpeakChunk]
    split_ifs <;> simp_all
  · intro buf c rest h
    obtain ⟨hc, _, _, w, hw, hdec⟩ := extract_step buf c rest h
    exact ⟨hc, w, hw, hdec⟩
  · intro fuel
    induction fuel with
    | zero =>
      intro buf hlen
      have hb : buf = [] := List.eq_nil_of_length_eq_zero (by omega)
      subst hb
      simp [chunkAll, WsInterleaved, jsTrim, jsTrimStart, jsTrimEnd]
    | succ n ih =>
      intro buf hlen
      rcases hx : extractSpeakChunk buf with ⟨o, r⟩
      cases o with
      | none =>
        rw [chunkAll, hx]
        by_cases he : (jsTrim buf).isEmpty = true
        · rw [if_pos he]
          have : jsTrim buf = [] := by
            cases hbb : jsTrim buf
            · rfl
            · rw [hbb] at he
              cases he
          rw [this]
          exact rfl
        · rw [if_neg he]
          exact ⟨[], [], by simp, by simp, rfl⟩
      | some c =>
        rw [chunkAll, hx]
        obtain ⟨hc, hrt, hrlen, w, hw, hdec⟩ := extract_step buf c r hx
        refine ⟨w, r, hw, hdec, ?_⟩
        have := ih r (by omega)
        rwa [hrt] at this

/-- C3 counterexample to the claim as stated: for the buffer
`"This is sentence one. More"` the chunker emits `"This is sentence one."`
and (after the leftover flush) `"More"`; concatenating the chunks with
nothing in between gives `"This is sentence one.More"`, which is NOT the
trimmed original — the space after the full stop was dropped at the cut. -/
theorem c3_counterexample :
    concatChunks (chunkAll 30 (r"This is sentence one. More").toList) ≠
      jsTrim (r"This is sentence one. More").toList := by
  decide

/-- C3 witness: the amended round-trip theorem applied to the same concrete
buffer, plus a concrete evaluation showing the two chunks it produces. -/
theorem c3_witness :
    ((r"This is sentence one. More").toList.length ≤ 30) ∧
    WsInterleaved (chunkAll 30 (r"This is sentence one. More").toList)
      (jsTrim (r"This is sentence one. More").toList) ∧
    chunkAll 30 (r"This is sentence one. More").toList =
      [(r"This is sentence one.").toList, (r"More").toList] :=
  ⟨by decide,
   c3_chunker_reconstruction.2.2 30 (r"This is sentence one. More").toList (by decide),
   by decide⟩

/-! ## Remaining fidelity lemmas and witnesses -/

theorem flushLoop_exhausts (fuel : Nat) (s : QState)
    (hf : s.ready.length ≤ fuel) :
    mapGet (flushLoop fuel s).ready (flushLoop fuel s).nextSeq = none := by
  induction fuel generalizing s with
  | zero =>
    have : s.ready = [] := List.eq_nil_of_length_eq_zero (by omega)
    rw [flushLoop, this]
    rfl
  | succ n ih =>
    rw [flushLoop]
    cases hget : mapGet s.ready s.nextSeq with
    | none => exact hget
    | some it =>
      apply ih
      have := mapDel_len hget
      show (mapDel s.ready s.nextSeq).length ≤ n
      omega

/-- C1 witness: submissions completing in the order 2, 0, 1 are still flushed
as 0, 1, 2, and the never-submitted sequence 3 bounds `nextSeq`. -/
theorem c1_witness :
    ((runQueue (fun _ => true) [⟨2, 0⟩, ⟨0, 1⟩, ⟨1, 2⟩]).flushTr.map
        (fun it => it.seq) =
      List.range (runQueue (fun _ => true) [⟨2, 0⟩, ⟨0, 1⟩, ⟨1, 2⟩]).nextSeq) ∧
    (3 ∉ ([⟨2, 0⟩, ⟨0, 1⟩, ⟨1, 2⟩] : List AudioItem).map (fun it => it.seq)) ∧
    ((runQueue (fun _ => true) [⟨2, 0⟩, ⟨0, 1⟩, ⟨1, 2⟩]).nextSeq ≤ 3) ∧
    ((runQueue (fun _ => true) [⟨2, 0⟩, ⟨0, 1⟩, ⟨1, 2⟩]).flushTr.map
        (fun it => it.seq) = [0, 1, 2]) :=
  ⟨(c1_ordered_playback (fun _ => true) [⟨2, 0⟩, ⟨0, 1⟩, ⟨1, 2⟩]).1,
   by decide,
   (c1_ordered_playback (fun _ => true) [⟨2, 0⟩, ⟨0, 1⟩, ⟨1, 2⟩]).2.2.2.1 3 (by decide),
   by decide⟩

/-- C9 witness: three chunks pushed with no completions — exactly two are
issued (the cap), the third pends; after the matching completions all three
have been issued in order. -/
theorem c9_witness :
    ((pumpRun [PumpEv.push 0, PumpEv.push 1, PumpEv.push 2]).inFlight ≤ 2) ∧
    ((pumpRun [PumpEv.push 0, PumpEv.push 1, PumpEv.push 2]).issued ++
        (pumpRun [PumpEv.push 0, PumpEv.push 1, PumpEv.push 2]).pending =
      pushesOf [PumpEv.push 0, PumpEv.push 1, PumpEv.push 2]) ∧
    ((pumpRun [PumpEv.push 0, PumpEv.push 1, PumpEv.push 2]).issued = [0, 1]) :=
  ⟨c9_tts_pump_bound.1 [PumpEv.push 0, PumpEv.push 1, PumpEv.push 2],
   c9_tts_pump_bound.2.1 [PumpEv.push 0, PumpEv.push 1, PumpEv.push 2],
   by decide⟩
